import Mathlib

/-!
Verification of the KeywordGuider core (src/keywordguider.py) against its
natural-language specification.

The Python code is shallowly embedded: JSON-shaped Python values become the
inductive `PyVal`; Python dicts are ordered association lists (first-match
lookup, in-place update, append-on-new-key — the semantics of Python 3.7+
dicts); `str.strip()` becomes `pyStrip`; fallible control flow is explicit.
Every definition mirrors the corresponding Python function line by line.
-/

set_option maxHeartbeats 1000000

/-- A JSON-shaped Python value: the dynamic values flowing through the
keyword-guider data layer (strings, ints, bools, None, lists, dicts).
Dicts are insertion-ordered association lists, as in Python 3.7+. -/
inductive PyVal where
  | str (s : String)
  | int (n : Int)
  | bool (b : Bool)
  | none
  | list (xs : List PyVal)
  | dict (kvs : List (String × PyVal))

mutual
def pyDecEq : (a b : PyVal) → Decidable (a = b)
  | .str a, .str b =>
    match decEq a b with
    | isTrue h => isTrue (by rw [h])
    | isFalse h => isFalse (by intro hh; injection hh; contradiction)
  | .int a, .int b =>
    match decEq a b with
    | isTrue h => isTrue (by rw [h])
    | isFalse h => isFalse (by intro hh; injection hh; contradiction)
  | .bool a, .bool b =>
    match decEq a b with
    | isTrue h => isTrue (by rw [h])
    | isFalse h => isFalse (by intro hh; injection hh; contradiction)
  | .none, .none => isTrue rfl
  | .list xs, .list ys =>
    match pyDecEqList xs ys with
    | isTrue h => isTrue (by rw [h])
    | isFalse h => isFalse (by intro hh; injection hh; contradiction)
  | .dict xs, .dict ys =>
    match pyDecEqPairs xs ys with
    | isTrue h => isTrue (by rw [h])
    | isFalse h => isFalse (by intro hh; injection hh; contradiction)
  | .str _, .int _ => isFalse nofun
  | .str _, .bool _ => isFalse nofun
  | .str _, .none => isFalse nofun
  | .str _, .list _ => isFalse nofun
  | .str _, .dict _ => isFalse nofun
  | .int _, .str _ => isFalse nofun
  | .int _, .bool _ => isFalse nofun
  | .int _, .none => isFalse nofun
  | .int _, .list _ => isFalse nofun
  | .int _, .dict _ => isFalse nofun
  | .bool _, .str _ => isFalse nofun
  | .bool _, .int _ => isFalse nofun
  | .bool _, .none => isFalse nofun
  | .bool _, .list _ => isFalse nofun
  | .bool _, .dict _ => isFalse nofun
  | .none, .str _ => isFalse nofun
  | .none, .int _ => isFalse nofun
  | .none, .bool _ => isFalse nofun
  | .none, .list _ => isFalse nofun
  | .none, .dict _ => isFalse nofun
  | .list _, .str _ => isFalse nofun
  | .list _, .int _ => isFalse nofun
  | .list _, .bool _ => isFalse nofun
  | .list _, .none => isFalse nofun
  | .list _, .dict _ => isFalse nofun
  | .dict _, .str _ => isFalse nofun
  | .dict _, .int _ => isFalse nofun
  | .dict _, .bool _ => isFalse nofun
  | .dict _, .none => isFalse nofun
  | .dict _, .list _ => isFalse nofun

def pyDecEqList : (xs ys : List PyVal) → Decidable (xs = ys)
  | [], [] => isTrue rfl
  | [], _ :: _ => isFalse nofun
  | _ :: _, [] => isFalse nofun
  | x :: xs, y :: ys =>
    match pyDecEq x y with
    | isFalse h => isFalse (by intro hh; injection hh; contradiction)
    | isTrue h1 =>
      match pyDecEqList xs ys with
      | isTrue h2 => isTrue (by rw [h1, h2])
      | isFalse h => isFalse (by intro hh; injection hh; contradiction)

def pyDecEqPairs : (xs ys : List (String × PyVal)) → Decidable (xs = ys)
  | [], [] => isTrue rfl
  | [], _ :: _ => isFalse nofun
  | _ :: _, [] => isFalse nofun
  | (k1, v1) :: xs, (k2, v2) :: ys =>
    match decEq k1 k2 with
    | isFalse h => isFalse (by intro hh; injection hh with h1 h2; exact h (congrArg Prod.fst h1))
    | isTrue hk =>
      match pyDecEq v1 v2 with
      | isFalse h => isFalse (by intro hh; injection hh with h1 h2; exact h (congrArg Prod.snd h1))
      | isTrue hv =>
        match pyDecEqPairs xs ys with
        | isTrue h2 => isTrue (by rw [hk, hv, h2])
        | isFalse h => isFalse (by intro hh; injection hh; contradiction)
end

instance : DecidableEq PyVal := pyDecEq

namespace PyEmbed

/-- The whitespace characters stripped by Python `str.strip()` (ASCII part). -/
def pySpace (c : Char) : Bool :=
  c = ' ' || c = '\t' || c = '\n' || c = '\r' || c = '\x0b' || c = '\x0c'

/-- `str.strip()` on the character list: drop leading and trailing whitespace. -/
def stripChars (l : List Char) : List Char :=
  ((l.dropWhile pySpace).reverse.dropWhile pySpace).reverse

/-- Model of Python `str.strip()`. -/
def pyStrip (s : String) : String :=
  String.mk (stripChars s.data)

theorem dropWhile_eq_cons_head_false {p : α → Bool} :
    ∀ {l : List α} {a : α} {t : List α}, l.dropWhile p = a :: t → p a = false
  | [], _, _, h => by simp [List.dropWhile] at h
  | x :: xs, a, t, h => by
    rw [List.dropWhile_cons] at h
    by_cases hx : p x = true
    · rw [if_pos hx] at h
      exact dropWhile_eq_cons_head_false h
    · rw [if_neg hx] at h
      obtain ⟨rfl, -⟩ := List.cons.inj h
      simpa using hx

theorem dropWhile_idem (p : α → Bool) (l : List α) :
    (l.dropWhile p).dropWhile p = l.dropWhile p := by
  cases h : l.dropWhile p with
  | nil => rfl
  | cons a t =>
    have ha : p a = false := dropWhile_eq_cons_head_false h
    simp [List.dropWhile_cons, ha]

theorem dropWhile_stripChars (l : List Char) :
    (stripChars l).dropWhile pySpace = stripChars l := by
  unfold stripChars
  cases h : l.dropWhile pySpace with
  | nil => simp
  | cons a t =>
    have ha : pySpace a = false := dropWhile_eq_cons_head_false h
    rw [List.reverse_cons, List.dropWhile_append]
    by_cases hz : (t.reverse.dropWhile pySpace).isEmpty
    · simp [hz, List.dropWhile_cons, ha]
    · simp [hz, List.reverse_append, List.dropWhile_cons, ha]

theorem stripChars_idem (l : List Char) :
    stripChars (stripChars l) = stripChars l := by
  conv_lhs => rw [stripChars, dropWhile_stripChars]
  rw [stripChars, List.reverse_reverse, dropWhile_idem]

theorem pyStrip_idem (s : String) : pyStrip (pyStrip s) = pyStrip s := by
  unfold pyStrip
  rw [stripChars_idem]

@[simp] theorem pyStrip_empty : pyStrip "" = "" := rfl

theorem pyStrip_of_stripped {s : String} (h : pyStrip s = s) :
    pyStrip s = s := h

@[simp] theorem stringMk_data (s : String) : String.mk s.data = s := rfl

/-- First-match lookup in an ordered dict, Python `d[k]` / `d.get(k)`. -/
def dGet (kvs : List (String × PyVal)) (k : String) : Option PyVal :=
  match kvs with
  | [] => Option.none
  | (k2, v) :: rest => if k2 = k then some v else dGet rest k

/-- Python `d.get(k, dflt)`. -/
def dGetD (kvs : List (String × PyVal)) (k : String) (dflt : PyVal) : PyVal :=
  (dGet kvs k).getD dflt

/-- Python `k in d`. -/
def dMem (kvs : List (String × PyVal)) (k : String) : Bool :=
  (dGet kvs k).isSome

/-- Python `d[k] = v`: replace the first binding in place, or append. -/
def dSet (kvs : List (String × PyVal)) (k : String) (v : PyVal) :
    List (String × PyVal) :=
  match kvs with
  | [] => [(k, v)]
  | (k2, v2) :: rest => if k2 = k then (k2, v) :: rest else (k2, v2) :: dSet rest k v

/-- Python `d.setdefault(k, v)` (the resulting dict). -/
def dSetdefault (kvs : List (String × PyVal)) (k : String) (v : PyVal) :
    List (String × PyVal) :=
  if dMem kvs k then kvs else kvs ++ [(k, v)]

@[simp] theorem dGet_nil (k : String) : dGet [] k = Option.none := rfl

theorem dGet_dSet_self (kvs : List (String × PyVal)) (k : String) (v : PyVal) :
    dGet (dSet kvs k v) k = some v := by
  induction kvs with
  | nil => simp [dSet, dGet]
  | cons kv rest ih =>
    obtain ⟨k2, v2⟩ := kv
    by_cases h : k2 = k
    · simp [dSet, dGet, h]
    · simp [dSet, dGet, h, ih]

theorem dGet_dSet_ne (kvs : List (String × PyVal)) {k k2 : String} (v : PyVal)
    (h : k ≠ k2) : dGet (dSet kvs k v) k2 = dGet kvs k2 := by
  induction kvs with
  | nil => simp [dSet, dGet, h]
  | cons kv rest ih =>
    obtain ⟨k3, v3⟩ := kv
    by_cases h3 : k3 = k
    · subst h3
      simp [dSet, dGet, h]
    · simp [dSet, dGet, h3, ih]

theorem dSet_same {kvs : List (String × PyVal)} {k : String} {v : PyVal}
    (h : dGet kvs k = some v) : dSet kvs k v = kvs := by
  induction kvs with
  | nil => simp [dGet] at h
  | cons kv rest ih =>
    obtain ⟨k2, v2⟩ := kv
    by_cases h2 : k2 = k
    · simp [dGet, h2] at h
      simp [dSet, h2, h]
    · simp [dGet, h2] at h
      simp [dSet, h2, ih h]

theorem dSetdefault_of_mem {kvs : List (String × PyVal)} {k : String}
    (h : dMem kvs k) (v : PyVal) : dSetdefault kvs k v = kvs := by
  simp [dSetdefault, h]

theorem keys_dSet_of_mem {kvs : List (String × PyVal)} {k : String}
    (h : dMem kvs k = true) (v : PyVal) :
    (dSet kvs k v).map Prod.fst = kvs.map Prod.fst := by
  induction kvs with
  | nil => simp [dMem, dGet] at h
  | cons kv rest ih =>
    obtain ⟨k2, v2⟩ := kv
    by_cases h2 : k2 = k
    · simp [dSet, h2]
    · simp [dMem, dGet, h2] at h
      simp [dSet, h2, ih h]

/-- Python truthiness of a `PyVal`. -/
def pyTruthy : PyVal → Bool
  | .str s => !(s = "")
  | .int n => !(n = 0)
  | .bool b => b
  | .none => false
  | .list xs => !xs.isEmpty
  | .dict kvs => !kvs.isEmpty

def isList : PyVal → Bool
  | .list _ => true
  | _ => false

def isDict : PyVal → Bool
  | .dict _ => true
  | _ => false

/-- Coerce to a dict body (callers only use this where the value is a dict). -/
def asDict : PyVal → List (String × PyVal)
  | .dict kvs => kvs
  | _ => []

def asList : PyVal → List PyVal
  | .list xs => xs
  | _ => []

mutual
/-- Model of Python `str(v)`.  Exact for `str`/`int`/`bool`/`None` (the cases
the claims exercise); containers are rendered in a repr-like form (string
escaping details elided — no claim depends on stringified containers). -/
def pyStr : PyVal → String
  | .str s => s
  | .int n => toString n
  | .bool b => if b then "True" else "False"
  | .none => "None"
  | .list xs => "[" ++ String.intercalate ", " (pyReprList xs) ++ "]"
  | .dict kvs => "\x7b" ++ String.intercalate ", " (pyReprPairs kvs) ++ "\x7d"

/-- Model of Python `repr(v)` (as used by `str` on containers). -/
def pyRepr : PyVal → String
  | .str s => "\x27" ++ s ++ "\x27"
  | .int n => toString n
  | .bool b => if b then "True" else "False"
  | .none => "None"
  | .list xs => "[" ++ String.intercalate ", " (pyReprList xs) ++ "]"
  | .dict kvs => "\x7b" ++ String.intercalate ", " (pyReprPairs kvs) ++ "\x7d"

def pyReprList : List PyVal → List String
  | [] => []
  | x :: xs => pyRepr x :: pyReprList xs

def pyReprPairs : List (String × PyVal) → List String
  | [] => []
  | (k, v) :: kvs => (pyRepr (.str k) ++ ": " ++ pyRepr v) :: pyReprPairs kvs
end

@[simp] theorem pyStr_str (s : String) : pyStr (.str s) = s := rfl

theorem length_dropWhile_le (p : α → Bool) (l : List α) :
    (l.dropWhile p).length ≤ l.length := by
  induction l with
  | nil => simp
  | cons a t ih =>
    rw [List.dropWhile_cons]
    by_cases h : p a = true
    · rw [if_pos h]; exact Nat.le_succ_of_le ih
    · rw [if_neg h]

end PyEmbed

namespace KG

open PyEmbed

/-! ## Constants (src/keywordguider.py, top of file) -/

def DEFAULT_DELIMITER : String := ";"

/-- `default_issues()`. -/
def default_issues : List String := ["데이터 이슈", "망등록 이슈"]

/-! ## Template engine

`PLACEHOLDER_RE = re.compile(r"\{([A-Za-z0-9_]+)\}")`.  The regex semantics
(leftmost, non-overlapping matches; greedy name run followed by `}`) are
embedded as the scanner `scanSegs`, which partitions a character list into
literal characters and `{NAME}` tokens. -/

/-- A character of the regex class `[A-Za-z0-9_]` (ASCII, as in Python `re`). -/
def isNameChar (c : Char) : Bool :=
  ('A' ≤ c && c ≤ 'Z') || ('a' ≤ c && c ≤ 'z') || ('0' ≤ c && c ≤ '9') || c = '_'

inductive Seg where
  | lit (c : Char)
  | tok (name : List Char)
deriving DecidableEq

/-- Scan a template into literal characters and `{NAME}` tokens, with the
matching discipline of `re.finditer`: at each `{`, match iff a nonempty
maximal run of name characters is followed immediately by `}`. -/
def scanSegs : List Char → List Seg
  | [] => []
  | c :: rest =>
    if c = '{' then
      if hn : rest.takeWhile isNameChar ≠ []
          ∧ (rest.dropWhile isNameChar).head? = some '}' then
        .tok (rest.takeWhile isNameChar) :: scanSegs (rest.dropWhile isNameChar).tail
      else .lit c :: scanSegs rest
    else .lit c :: scanSegs rest
termination_by l => l.length
decreasing_by
  all_goals
    first
      | (simp only [List.length_cons]; omega)
      | (have h1 : (rest.dropWhile isNameChar).length ≤ rest.length :=
           length_dropWhile_le _ _
         have h2 : rest.dropWhile isNameChar ≠ [] := by
           intro hz
           rw [hz] at hn
           simp at hn
         have h3 : (rest.dropWhile isNameChar).tail.length
             = (rest.dropWhile isNameChar).length - 1 := by
           simp [List.length_tail]
         simp only [List.length_cons]
         have h4 : 0 < (rest.dropWhile isNameChar).length :=
           List.length_pos.mpr h2
         omega)

/-- Characters denoted by one segment. -/
def segChars : Seg → List Char
  | .lit c => [c]
  | .tok n => '{' :: (n ++ ['}'])

/-- Concatenate the segments back into the original character list. -/
def flattenSegs : List Seg → List Char
  | [] => []
  | .lit c :: rest => c :: flattenSegs rest
  | .tok n :: rest => '{' :: (n ++ '}' :: flattenSegs rest)

/-- The token names of a scanned template, in order of occurrence. -/
def segTokens : List Seg → List (List Char)
  | [] => []
  | .lit _ :: rest => segTokens rest
  | .tok n :: rest => n :: segTokens rest

/-- The `seen`-set / `ordered`-list loop of `detect_placeholders`. -/
def detectAux : List (List Char) → List String → List String → List String
  | [], _, ordered => ordered
  | n :: ms, seen, ordered =>
    let name := String.mk n
    if name ∈ seen then detectAux ms seen ordered
    else detectAux ms (name :: seen) (ordered ++ [name])

/-- `detect_placeholders(text)`. -/
def detect_placeholders (text : String) : List String :=
  detectAux (segTokens (scanSegs text.data)) [] []

/-- Python `s.replace(pat, rep)`: replace all non-overlapping occurrences,
left to right.  The empty-pattern case never arises here (patterns are
always braced) and is mapped to the identity. -/
def replaceAllCh (s pat rep : List Char) : List Char :=
  if hpat : pat = [] then s
  else
    match s with
    | [] => []
    | c :: rest =>
      if pat.isPrefixOf (c :: rest) then
        rep ++ replaceAllCh ((c :: rest).drop pat.length) pat rep
      else c :: replaceAllCh rest pat rep
termination_by s.length
decreasing_by
  · have : 0 < pat.length := List.length_pos.mpr hpat
    simp only [List.length_drop, List.length_cons]
    omega
  · simp

def strReplace (s pat rep : String) : String :=
  String.mk (replaceAllCh s.data pat.data rep.data)

/-- `render_keyword(template, params)`: `out = template or ""`, then for each
`k, v` in the params mapping (insertion order), `out = out.replace("{"+str(k)+"}", str(v))`.
Param keys are strings in this data model (`str(k) = k`). -/
def render_keyword (template : String) (params : List (String × PyVal)) : String :=
  params.foldl (fun out kv => strReplace out ("\x7b" ++ kv.1 ++ "\x7d") (pyStr kv.2)) template

/-- Drop every token, keep the literal characters: `PLACEHOLDER_RE.sub("", ...)`. -/
def stripTokensSegs : List Seg → List Char
  | [] => []
  | .lit c :: rest => c :: stripTokensSegs rest
  | .tok _ :: rest => stripTokensSegs rest

/-- `render_keyword_without_params(template)`. -/
def render_keyword_without_params (template : String) : String :=
  if template = "" then ""   -- `if not template: return ""`
  else String.mk (stripTokensSegs (scanSegs template.data))

/-! ## Split / join -/

/-- Python `text.split(sep)` for nonempty `sep` (callers guard the empty
case, where Python would raise; we map it to `[s]`). -/
def splitOnCh (s sep : List Char) : List (List Char) :=
  if hsep : sep = [] then [s]
  else
    match s with
    | [] => [[]]
    | c :: rest =>
      if sep.isPrefixOf (c :: rest) then
        [] :: splitOnCh ((c :: rest).drop sep.length) sep
      else
        match splitOnCh rest sep with
        | [] => [[c]]
        | f :: fs => (c :: f) :: fs
termination_by s.length
decreasing_by
  · have : 0 < sep.length := List.length_pos.mpr hsep
    simp only [List.length_drop, List.length_cons]
    omega
  · simp

def pySplit (text sep : String) : List String :=
  (splitOnCh text.data sep.data).map String.mk

/-- Python `sub in s` (substring containment). -/
def containsSub (s sub : List Char) : Bool :=
  match s with
  | [] => sub.isEmpty
  | c :: rest => sub.isPrefixOf (c :: rest) || containsSub rest sub

def containsStr (t sub : String) : Bool := containsSub t.data sub.data

/-- `_clean_str_list_keep_order(items)`: `s = str(it).strip(); if s: out.append(s)`.
Call sites always pass a Python list; the `items or []` guard is subsumed. -/
def _clean_str_list_keep_order (items : List PyVal) : List String :=
  items.filterMap (fun it =>
    let s := pyStrip (pyStr it)
    if s = "" then Option.none else some s)

/-- `keyword_joined_template(kw, delimiter)`.  A non-dict falsy `kw` behaves
as `{}` (`(kw or {}).get`); a truthy non-dict would raise in Python and is
unreachable in the app, here it also behaves as `{}`. -/
def keyword_joined_template (kw : PyVal) (delimiter : Option String) : String :=
  let d := match delimiter with
    | Option.none => DEFAULT_DELIMITER   -- `DEFAULT_DELIMITER if delimiter is None`
    | some s => s                        -- `str(delimiter)`
  if isDict kw && isList (dGetD (asDict kw) "parts" .none) then
    String.intercalate d (_clean_str_list_keep_order (asList (dGetD (asDict kw) "parts" .none)))
  else pyStrip (pyStr (dGetD (asDict kw) "text" (.str "")))

/-- `keyword_parts_from_kw(kw, delimiter)`. -/
def keyword_parts_from_kw (kw : PyVal) (delimiter : Option String) : List String :=
  let d := match delimiter with
    | Option.none => DEFAULT_DELIMITER
    | some s => s
  if isDict kw && isList (dGetD (asDict kw) "parts" .none)
      && pyTruthy (dGetD (asDict kw) "parts" .none) then
    _clean_str_list_keep_order (asList (dGetD (asDict kw) "parts" .none))
  else
    let text := pyStrip (pyStr (dGetD (asDict kw) "text" (.str "")))
    if text = "" then []
    else if !(d = "") && containsStr text d then
      -- `[p.strip() for p in text.split(delimiter) if p.strip()]`
      ((pySplit text d).filter (fun p => !(pyStrip p = ""))).map pyStrip
    else [text]

/-- `KeywordDialog._split_by_delimiter(text)`; `self.delimiter` (a string) is
passed explicitly. -/
def _split_by_delimiter (delimiter : String) (text : String) : List String :=
  if delimiter = "" then []
  else
    -- `parts = [p.strip() for p in (text or "").split(delim)]`
    let parts := (pySplit text delimiter).map pyStrip
    -- `return [p for p in parts if p]`
    parts.filter (fun p => !(p = ""))

/-! ## Properties of substring containment -/

theorem containsSub_iff (s sub : List Char) :
    containsSub s sub = true ↔ ∃ l r, s = l ++ sub ++ r := by
  induction s with
  | nil =>
    constructor
    · intro h
      simp only [containsSub, List.isEmpty_iff] at h
      exact ⟨[], [], by simp [h]⟩
    · rintro ⟨l, r, he⟩
      have := he.symm
      simp only [List.append_eq_nil, List.append_assoc] at this
      simp [containsSub, this.1, this.2.1]
  | cons c rest ih =>
    simp only [containsSub, Bool.or_eq_true, ih]
    constructor
    · rintro (hp | ⟨l, r, rfl⟩)
      · rw [List.isPrefixOf_iff_prefix] at hp
        obtain ⟨r, hr⟩ := hp
        exact ⟨[], r, by simp [hr.symm]⟩
      · exact ⟨c :: l, r, by simp⟩
    · rintro ⟨l, r, he⟩
      cases l with
      | nil =>
        left
        rw [List.isPrefixOf_iff_prefix]
        exact ⟨r, by simpa using he.symm⟩
      | cons x l2 =>
        right
        simp only [List.cons_append, List.cons.injEq] at he
        exact ⟨l2, r, he.2⟩

/-! ## The first-seen deduplication described by the spec for
`detect_placeholders` (single accumulator), to be compared with the
two-accumulator `seen`/`ordered` loop of the source. -/

def firstSeenDedup (l : List String) : List String :=
  l.foldl (fun acc n => if n ∈ acc then acc else acc ++ [n]) []

/-- The raw token-name sequence of a template, in occurrence order. -/
def tokenNames (text : String) : List String :=
  (segTokens (scanSegs text.data)).map String.mk

theorem detectAux_foldl :
    ∀ (ms : List (List Char)) (seen ordered : List String),
      (∀ x, x ∈ seen ↔ x ∈ ordered) →
      detectAux ms seen ordered =
        ms.foldl (fun acc n => if String.mk n ∈ acc then acc else acc ++ [String.mk n]) ordered := by
  intro ms
  induction ms with
  | nil => intro seen ordered _; rfl
  | cons n ms ih =>
    intro seen ordered hinv
    simp only [detectAux, List.foldl_cons]
    by_cases hmem : String.mk n ∈ seen
    · rw [if_pos hmem, if_pos ((hinv _).mp hmem)]
      exact ih seen ordered hinv
    · rw [if_neg hmem, if_neg (fun hc => hmem ((hinv _).mpr hc))]
      refine ih _ _ ?_
      intro x
      simp only [List.mem_cons, List.mem_append, List.mem_singleton, hinv x]
      tauto

theorem foldl_dedup_nodup :
    ∀ (ms acc : List String), acc.Nodup →
      (ms.foldl (fun acc n => if n ∈ acc then acc else acc ++ [n]) acc).Nodup := by
  intro ms
  induction ms with
  | nil => intro acc h; exact h
  | cons n ms ih =>
    intro acc h
    simp only [List.foldl_cons]
    by_cases hmem : n ∈ acc
    · rw [if_pos hmem]; exact ih acc h
    · rw [if_neg hmem]
      refine ih _ ?_
      simp [List.nodup_append, h, hmem]

theorem foldl_dedup_mem :
    ∀ (ms acc : List String) (x : String),
      x ∈ ms.foldl (fun acc n => if n ∈ acc then acc else acc ++ [n]) acc ↔
        x ∈ acc ∨ x ∈ ms := by
  intro ms
  induction ms with
  | nil => intro acc x; simp
  | cons n ms ih =>
    intro acc x
    simp only [List.foldl_cons, List.mem_cons]
    by_cases hmem : n ∈ acc
    · rw [if_pos hmem, ih]
      constructor
      · tauto
      · rintro (h | rfl | h)
        · tauto
        · exact Or.inl hmem
        · tauto
    · rw [if_neg hmem, ih]
      simp only [List.mem_append, List.mem_singleton]
      tauto

/-- C9: `detect_placeholders` returns the distinct `\x7bNAME\x7d` token names,
each exactly once (`Nodup`), in first-occurrence order (it equals the
single-accumulator first-seen deduplication of the raw token-name sequence),
with membership exactly the token names; and on `"{CH} x {ABC} y {CH}"` it
returns `["CH", "ABC"]`. -/
theorem detect_placeholders_spec :
    (∀ text, detect_placeholders text = firstSeenDedup (tokenNames text))
  ∧ (∀ text, (detect_placeholders text).Nodup)
  ∧ (∀ text n, n ∈ detect_placeholders text ↔ n ∈ tokenNames text)
  ∧ detect_placeholders "{CH} x {ABC} y {CH}" = ["CH", "ABC"] := by
  have heq : ∀ text, detect_placeholders text = firstSeenDedup (tokenNames text) := by
    intro text
    rw [detect_placeholders, detectAux_foldl _ [] [] (by simp), firstSeenDedup,
      tokenNames, List.foldl_map]
  refine ⟨heq, ?_, ?_, ?_⟩
  · intro text
    rw [heq]
    exact foldl_dedup_nodup _ _ (by simp)
  · intro text n
    rw [heq, firstSeenDedup, foldl_dedup_mem]
    simp
  · simp [detect_placeholders, scanSegs, segTokens, detectAux, List.dropWhile,
      List.takeWhile, isNameChar]

/-- C5: joining the parts `["A","B","A"]` with delimiter `";"` yields
`"A;B;A"`; splitting `"A;B;A"` by `";"` yields `["A","B","A"]` (duplicates
preserved, no deduplication); splitting any text by the empty delimiter
returns the empty sequence; and every fragment produced by splitting is
trimmed and nonempty. -/
theorem join_split_round_trip :
    keyword_joined_template
        (.dict [("parts", .list [.str "A", .str "B", .str "A"])]) (some ";") = "A;B;A"
  ∧ _split_by_delimiter ";" "A;B;A" = ["A", "B", "A"]
  ∧ (∀ text, _split_by_delimiter "" text = [])
  ∧ (∀ d text p, p ∈ _split_by_delimiter d text → pyStrip p = p ∧ p ≠ "") := by
  refine ⟨?_, ?_, ?_, ?_⟩
  · simp [keyword_joined_template, isDict, isList, dGetD, dGet, asDict, asList,
      _clean_str_list_keep_order, pyStrip, stripChars, List.dropWhile, pySpace,
      String.intercalate]
    rfl
  · simp [_split_by_delimiter, pySplit, splitOnCh, List.isPrefixOf, pyStrip,
      stripChars, List.dropWhile, pySpace]
  · intro text
    simp [_split_by_delimiter]
  · intro d text p hp
    unfold _split_by_delimiter at hp
    by_cases hd : d = ""
    · simp [hd] at hp
    · rw [if_neg hd] at hp
      simp only [List.mem_filter, List.mem_map, Bool.not_eq_eq_eq_not, Bool.not_true,
        decide_eq_false_iff_not] at hp
      obtain ⟨⟨q, _, rfl⟩, hne⟩ := hp
      exact ⟨pyStrip_idem q, hne⟩

/-- Witness for C5's fragment property at a concrete split. -/
theorem join_split_round_trip_witness :
    pyStrip "A" = "A" ∧ "A" ≠ ("" : String) :=
  join_split_round_trip.2.2.2 ";" "A;B;A" "A" (by
    simp [_split_by_delimiter, pySplit, splitOnCh, List.isPrefixOf, pyStrip,
      stripChars, List.dropWhile, pySpace])

/-- C10's precondition: the keyword record has no usable `parts` list
(no such key, a non-list value, or an empty list). -/
def noUsableParts (kvs : List (String × PyVal)) : Prop :=
  dGet kvs "parts" = Option.none
  ∨ (∃ v, dGet kvs "parts" = some v ∧ isList v = false)
  ∨ dGet kvs "parts" = some (.list [])

/-- C10: for a keyword record without a usable parts list,
`keyword_parts_from_kw` derives the parts from the `text` field: empty
trimmed text gives `[]`; an empty delimiter or one that does not occur as a
substring of the trimmed text gives the one-element list of the whole
trimmed text; otherwise the text is split on the delimiter, each fragment
trimmed, and empty fragments dropped. -/
theorem keyword_parts_fallback (kvs : List (String × PyVal)) (d : Option String)
    (h : noUsableParts kvs) :
    (pyStrip (pyStr (dGetD kvs "text" (.str ""))) = "" →
        keyword_parts_from_kw (.dict kvs) d = [])
  ∧ (pyStrip (pyStr (dGetD kvs "text" (.str ""))) ≠ "" →
      (d.getD DEFAULT_DELIMITER = "" ∨
        ¬ ∃ l r, (pyStrip (pyStr (dGetD kvs "text" (.str "")))).data =
          l ++ (d.getD DEFAULT_DELIMITER).data ++ r) →
        keyword_parts_from_kw (.dict kvs) d =
          [pyStrip (pyStr (dGetD kvs "text" (.str "")))])
  ∧ (pyStrip (pyStr (dGetD kvs "text" (.str ""))) ≠ "" →
      d.getD DEFAULT_DELIMITER ≠ "" →
      (∃ l r, (pyStrip (pyStr (dGetD kvs "text" (.str "")))).data =
          l ++ (d.getD DEFAULT_DELIMITER).data ++ r) →
        keyword_parts_from_kw (.dict kvs) d =
          ((pySplit (pyStrip (pyStr (dGetD kvs "text" (.str ""))))
              (d.getD DEFAULT_DELIMITER)).map pyStrip).filter (fun p => !(p = ""))) := by
  have hdd : (match d with
      | Option.none => DEFAULT_DELIMITER
      | some s => s) = d.getD DEFAULT_DELIMITER := by
    cases d <;> rfl
  have hg : (isDict (.dict kvs) && isList (dGetD kvs "parts" .none)
      && pyTruthy (dGetD kvs "parts" .none)) = false := by
    rcases h with h | ⟨v, hv, hl⟩ | h
    · simp [isDict, dGetD, h, isList]
    · simp [isDict, dGetD, hv, hl]
    · simp [isDict, dGetD, h, isList, pyTruthy]
  set t := pyStrip (pyStr (dGetD kvs "text" (.str ""))) with ht
  have hunf : keyword_parts_from_kw (.dict kvs) d =
      (if t = "" then []
       else if !(d.getD DEFAULT_DELIMITER = "")
            && containsStr t (d.getD DEFAULT_DELIMITER) then
         ((pySplit t (d.getD DEFAULT_DELIMITER)).filter
             (fun p => !(pyStrip p = ""))).map pyStrip
       else [t]) := by
    rw [keyword_parts_from_kw.eq_def]
    simp only [hdd, asDict, hg, Bool.false_eq_true, if_false]
  refine ⟨?_, ?_, ?_⟩
  · intro he
    rw [hunf, if_pos he]
  · intro hne hor
    rw [hunf, if_neg hne, if_neg ?_]
    rcases hor with he | hnc
    · simp [he]
    · have : containsStr t (d.getD DEFAULT_DELIMITER) = false := by
        rw [← Bool.not_eq_true, containsStr, containsSub_iff]
        intro hc
        exact hnc (by simpa using hc)
      simp [this]
  · intro hne hd hc
    have hcs : containsStr t (d.getD DEFAULT_DELIMITER) = true := by
      rw [containsStr, containsSub_iff]
      simpa using hc
    rw [hunf, if_neg hne, if_pos (by simp [hcs, hd])]
    rw [List.filter_map]
    rfl

/-- Witness for C10 at a concrete text-only keyword record. -/
theorem keyword_parts_fallback_witness :
    keyword_parts_from_kw (.dict [("text", PyVal.str "A;B")]) (some ";") = ["A", "B"] := by
  have ht : pyStrip (pyStr (dGetD [("text", PyVal.str "A;B")] "text" (.str ""))) = "A;B" := by
    simp [dGetD, dGet, pyStrip, stripChars, List.dropWhile, pySpace]
  have h3 := (keyword_parts_fallback [("text", PyVal.str "A;B")] (some ";")
      (Or.inl (by simp [dGet]))).2.2
  rw [ht] at h3
  rw [h3 (by decide) (by decide) ⟨['A'], ['B'], by decide⟩]
  simp [pySplit, splitOnCh, List.isPrefixOf, pyStrip, stripChars, List.dropWhile, pySpace]

/-! ## Render: the spec's simultaneous per-token substitution, and its
relation to the source's sequential `str.replace` loop. -/

/-- The spec's description of `render`: every `\x7bNAME\x7d` token whose name
has an entry in params is replaced by the stringified value (first match);
tokens without an entry stay literally; literal characters stay. -/
def renderSpecSegs (params : List (String × PyVal)) : List Seg → List Char
  | [] => []
  | .lit c :: rest => c :: renderSpecSegs params rest
  | .tok n :: rest =>
    (match dGet params (String.mk n) with
      | some v => (pyStr v).data
      | Option.none => '{' :: (n ++ ['}'])) ++ renderSpecSegs params rest

/-- The render function as the spec words it (simultaneous, per-occurrence). -/
def renderSpec (template : String) (params : List (String × PyVal)) : String :=
  String.mk (renderSpecSegs params (scanSegs template.data))

/-- Well-shaped segments: literals are not braces; token names are nonempty
runs of name characters.  `scanSegs` output always satisfies the token half;
the literal half is the `templateOk` condition below. -/
def segsOk (segs : List Seg) : Prop :=
  ∀ sg ∈ segs, (∀ c, sg = .lit c → c ≠ '{' ∧ c ≠ '}')
    ∧ (∀ n, sg = .tok n → n ≠ [] ∧ ∀ ch ∈ n, isNameChar ch = true)

/-- Every brace in the template belongs to a well-formed `\x7bNAME\x7d` token. -/
def templateOk (t : String) : Bool :=
  (scanSegs t.data).all (fun sg => match sg with
    | .lit c => !(c = '{' || c = '}')
    | .tok _ => true)

def braceFree (s : String) : Bool := s.data.all (fun c => !(c = '{' || c = '}'))

def nameOk (s : String) : Bool := !(s = "") && s.data.all isNameChar

@[simp] theorem scanSegs_nil : scanSegs [] = [] := by
  simp [scanSegs]

theorem eq_cons_of_head_eq {l : List α} {a : α} (h : l.head? = some a) :
    l = a :: l.tail := by
  cases l with
  | nil => cases h
  | cons x t =>
    simp only [List.head?] at h
    cases h
    rfl

theorem scanSegs_open_tok {rest : List Char}
    (h : (rest.dropWhile isNameChar).head? = some '}')
    (hname : rest.takeWhile isNameChar ≠ []) :
    scanSegs ('{' :: rest) =
      .tok (rest.takeWhile isNameChar) :: scanSegs (rest.dropWhile isNameChar).tail := by
  simp only [scanSegs]
  rw [dif_pos ⟨hname, h⟩]
  simp

theorem scanSegs_open_lit {rest : List Char}
    (h : ¬ (rest.takeWhile isNameChar ≠ []
        ∧ (rest.dropWhile isNameChar).head? = some '}')) :
    scanSegs ('{' :: rest) = .lit '{' :: scanSegs rest := by
  simp only [scanSegs]
  rw [dif_neg h]
  simp

theorem scanSegs_cons_ne {c : Char} (rest : List Char) (hc : c ≠ '{') :
    scanSegs (c :: rest) = .lit c :: scanSegs rest := by
  simp [scanSegs, hc]

theorem flatten_scanSegs : ∀ l, flattenSegs (scanSegs l) = l := by
  intro l
  induction l using scanSegs.induct with
  | case1 => simp [flattenSegs]
  | case2 rest hn ih =>
    rw [scanSegs_open_tok hn.2 hn.1]
    simp only [flattenSegs, ih]
    have hsplit := List.takeWhile_append_dropWhile (p := isNameChar) (l := rest)
    have hdw := eq_cons_of_head_eq hn.2
    rw [List.cons.injEq]
    refine ⟨rfl, ?_⟩
    rw [← hdw]
    exact hsplit
  | case3 rest hn ih =>
    rw [scanSegs_open_lit hn]
    simpa [flattenSegs] using ih
  | case4 c rest hc ih =>
    rw [scanSegs_cons_ne rest hc]
    simpa [flattenSegs] using ih

theorem scanSegs_tok_ok :
    ∀ l n, Seg.tok n ∈ scanSegs l → n ≠ [] ∧ ∀ ch ∈ n, isNameChar ch = true := by
  intro l
  induction l using scanSegs.induct with
  | case1 => intro n hn; simp at hn
  | case2 rest hn ih =>
    intro n hmem
    rw [scanSegs_open_tok hn.2 hn.1] at hmem
    simp only [List.mem_cons] at hmem
    rcases hmem with hmem | hmem
    · obtain rfl : n = rest.takeWhile isNameChar := by
        cases hmem; rfl
      exact ⟨hn.1, fun ch hch => List.mem_takeWhile_imp hch⟩
    · exact ih n hmem
  | case3 rest hn ih =>
    intro n hmem
    rw [scanSegs_open_lit hn] at hmem
    simp only [List.mem_cons] at hmem
    rcases hmem with hmem | hmem
    · cases hmem
    · exact ih n hmem
  | case4 c rest hc ih =>
    intro n hmem
    rw [scanSegs_cons_ne rest hc] at hmem
    simp only [List.mem_cons] at hmem
    rcases hmem with hmem | hmem
    · cases hmem
    · exact ih n hmem

theorem segsOk_nil : segsOk [] := by
  intro sg hsg
  cases hsg

theorem segsOk_cons {sg : Seg} {segs : List Seg} (h : segsOk (sg :: segs)) :
    segsOk segs := fun s hs => h s (List.mem_cons_of_mem _ hs)

theorem segsOk_scan {t : String} (h : templateOk t = true) :
    segsOk (scanSegs t.data) := by
  intro sg hsg
  constructor
  · intro c hc
    subst hc
    rw [templateOk, List.all_eq_true] at h
    have hlit := h _ hsg
    constructor <;> rintro rfl <;> simp at hlit
  · intro n hn
    subst hn
    exact scanSegs_tok_ok _ _ hsg

theorem isNameChar_ne_braces {c : Char} (h : isNameChar c = true) :
    c ≠ '{' ∧ c ≠ '}' := by
  constructor <;> rintro rfl <;> simp [isNameChar] at h

/-! ### Step equations for `replaceAllCh` -/

theorem replaceAllCh_nil (pat rep : List Char) : replaceAllCh [] pat rep = [] := by
  rw [replaceAllCh.eq_def]
  split <;> rfl

theorem replaceAllCh_empty_pat (s rep : List Char) : replaceAllCh s [] rep = s := by
  rw [replaceAllCh.eq_def]
  simp

theorem replaceAllCh_cons_pre {pat : List Char} (hpat : pat ≠ []) {c : Char}
    {rest : List Char} (hpre : pat.isPrefixOf (c :: rest) = true) (rep : List Char) :
    replaceAllCh (c :: rest) pat rep =
      rep ++ replaceAllCh ((c :: rest).drop pat.length) pat rep := by
  rw [replaceAllCh.eq_def]
  rw [dif_neg hpat]
  show (if pat.isPrefixOf (c :: rest) = true then
      rep ++ replaceAllCh (List.drop pat.length (c :: rest)) pat rep
    else c :: replaceAllCh rest pat rep) = _
  rw [if_pos hpre]

theorem replaceAllCh_cons_notPrefix {pat : List Char} (hpat : pat ≠ []) {c : Char}
    {rest : List Char} (hpre : pat.isPrefixOf (c :: rest) = false) (rep : List Char) :
    replaceAllCh (c :: rest) pat rep = c :: replaceAllCh rest pat rep := by
  rw [replaceAllCh.eq_def]
  rw [dif_neg hpat]
  show (if pat.isPrefixOf (c :: rest) = true then
      rep ++ replaceAllCh (List.drop pat.length (c :: rest)) pat rep
    else c :: replaceAllCh rest pat rep) = _
  rw [if_neg (by simp [hpre])]

/-- Replacement skips over a segment that cannot contain the start of the
pattern (the pattern begins with `{`). -/
theorem replaceAllCh_brace_skip (pt rep : List Char) :
    ∀ (s1 s2 : List Char), (∀ c ∈ s1, c ≠ '{') →
      replaceAllCh (s1 ++ s2) ('{' :: pt) rep = s1 ++ replaceAllCh s2 ('{' :: pt) rep := by
  intro s1
  induction s1 with
  | nil => intro s2 _; simp
  | cons c s1 ih =>
    intro s2 hs
    have hc : c ≠ '{' := hs c (by simp)
    rw [List.cons_append,
      replaceAllCh_cons_notPrefix (by simp) (by simp [List.isPrefixOf_cons₂]; intro hq; exact absurd hq.symm hc)]
    rw [ih s2 (fun x hx => hs x (List.mem_cons_of_mem _ hx))]
    simp

/-- The pattern for key `k` does not match at a token with a different name. -/
theorem pat_not_prefix_tok :
    ∀ (k n : List Char), (∀ ch ∈ k, isNameChar ch = true) →
      (∀ ch ∈ n, isNameChar ch = true) → k ≠ n → ∀ t,
      (k ++ ['}']).isPrefixOf (n ++ '}' :: t) = false := by
  intro k
  induction k with
  | nil =>
    intro n _ hn hne t
    cases n with
    | nil => exact absurd rfl hne
    | cons b n2 =>
      have hb : b ≠ '}' := (isNameChar_ne_braces (hn b (by simp))).2
      simp [List.isPrefixOf_cons₂]
      intro hq
      exact absurd hq.symm hb
  | cons a k2 ih =>
    intro n hk hn hne t
    have ha : a ≠ '}' := (isNameChar_ne_braces (hk a (by simp))).2
    cases n with
    | nil =>
      simp [List.isPrefixOf_cons₂]
      intro hq
      exact absurd hq ha
    | cons b n2 =>
      by_cases hab : a = b
      · subst hab
        have hne2 : k2 ≠ n2 := by
          intro hq; exact hne (by rw [hq])
        simp only [List.cons_append, List.isPrefixOf_cons₂]
        rw [ih n2 (fun ch hch => hk ch (List.mem_cons_of_mem _ hch))
          (fun ch hch => hn ch (List.mem_cons_of_mem _ hch)) hne2 t]
        simp
      · simp [List.isPrefixOf_cons₂]
        intro hq
        exact absurd hq hab

/-- Replace one key's token by literal characters, at the segment level. -/
def replTok (k rep : List Char) : List Seg → List Seg
  | [] => []
  | .lit c :: rest => .lit c :: replTok k rep rest
  | .tok n :: rest => (if n = k then rep.map .lit else [.tok n]) ++ replTok k rep rest

theorem flattenSegs_append (a b : List Seg) :
    flattenSegs (a ++ b) = flattenSegs a ++ flattenSegs b := by
  induction a with
  | nil => simp [flattenSegs]
  | cons sg rest ih =>
    cases sg <;> simp [flattenSegs, ih]

theorem flattenSegs_map_lit (rep : List Char) :
    flattenSegs (rep.map .lit) = rep := by
  induction rep with
  | nil => rfl
  | cons c rest ih => simp [flattenSegs, ih]

theorem replTok_segsOk {k rep : List Char} (hrep : ∀ c ∈ rep, c ≠ '{' ∧ c ≠ '}') :
    ∀ {segs : List Seg}, segsOk segs → segsOk (replTok k rep segs) := by
  intro segs
  induction segs with
  | nil => intro _; exact segsOk_nil
  | cons sg rest ih =>
    intro hok
    have hokr := ih (segsOk_cons hok)
    cases sg with
    | lit c =>
      intro s hs
      simp only [replTok, List.mem_cons] at hs
      rcases hs with rfl | hs
      · exact hok _ (by simp)
      · exact hokr _ hs
    | tok n =>
      intro s hs
      simp only [replTok, List.mem_append, List.mem_cons] at hs
      rcases hs with hs | hs
      · by_cases hnk : n = k
        · rw [if_pos hnk] at hs
          obtain ⟨c, hc, rfl⟩ := List.mem_map.mp hs
          exact ⟨fun c2 hc2 => by cases hc2; exact hrep c hc, fun n2 hn2 => by cases hn2⟩
        · rw [if_neg hnk] at hs
          simp only [List.mem_singleton] at hs
          subst hs
          exact hok _ (by simp)
      · exact hokr _ hs

/-- One sequential `str.replace` step equals segment-level token replacement. -/
theorem replaceAllCh_flatten {k rep : List Char} (hk : k ≠ [])
    (hkc : ∀ ch ∈ k, isNameChar ch = true) (hrep : ∀ c ∈ rep, c ≠ '{' ∧ c ≠ '}') :
    ∀ {segs : List Seg}, segsOk segs →
      replaceAllCh (flattenSegs segs) ('{' :: (k ++ ['}'])) rep
        = flattenSegs (replTok k rep segs) := by
  intro segs
  induction segs with
  | nil => simp [flattenSegs, replTok, replaceAllCh_nil]
  | cons sg rest ih =>
    intro hok
    have ihr := ih (segsOk_cons hok)
    cases sg with
    | lit c =>
      have hc : c ≠ '{' := ((hok _ (by simp)).1 c rfl).1
      show replaceAllCh (c :: flattenSegs rest) _ _ = _
      have := replaceAllCh_brace_skip (k ++ ['}']) rep [c] (flattenSegs rest)
        (by simpa using hc)
      simp only [List.cons_append, List.nil_append] at this
      rw [this, ihr]
      rfl
    | tok n =>
      have hnOk := (hok _ (by simp)).2 n rfl
      show replaceAllCh ('{' :: (n ++ '}' :: flattenSegs rest)) _ _ = _
      by_cases hnk : n = k
      · subst hnk
        have hassoc : '{' :: (n ++ '}' :: flattenSegs rest)
            = ('{' :: (n ++ ['}'])) ++ flattenSegs rest := by simp
        have hpre : ('{' :: (n ++ ['}'])).isPrefixOf
            ('{' :: (n ++ '}' :: flattenSegs rest)) = true := by
          rw [hassoc, List.isPrefixOf_iff_prefix]
          exact List.prefix_append _ _
        rw [replaceAllCh_cons_pre (by simp) hpre]
        rw [hassoc, List.drop_left' (by simp)]
        rw [ihr]
        simp [replTok, flattenSegs_append, flattenSegs_map_lit]
      · have hnpre : (('{' :: (k ++ ['}'])).isPrefixOf
            ('{' :: (n ++ '}' :: flattenSegs rest))) = false := by
          simp only [List.isPrefixOf_cons₂]
          rw [pat_not_prefix_tok k n hkc hnOk.2 (fun hq => hnk hq.symm)]
          simp
        rw [replaceAllCh_cons_notPrefix (by simp) hnpre]
        have hskip := replaceAllCh_brace_skip (k ++ ['}']) rep n
          ('}' :: flattenSegs rest)
          (fun ch hch => (isNameChar_ne_braces (hnOk.2 ch hch)).1)
        rw [hskip]
        have hbr : (('{' :: (k ++ ['}'])).isPrefixOf ('}' :: flattenSegs rest)) = false := by
          simp [List.isPrefixOf_cons₂]
        rw [replaceAllCh_cons_notPrefix (by simp) hbr, ihr]
        simp [replTok, if_neg hnk, flattenSegs]

/-- The whole params fold, at the segment level. -/
def applyParams (ps : List (String × PyVal)) (segs : List Seg) : List Seg :=
  ps.foldl (fun sg kv => replTok kv.1.data (pyStr kv.2).data sg) segs

theorem foldl_replace_flatten :
    ∀ (ps : List (String × PyVal)),
      (∀ kv ∈ ps, nameOk kv.1 = true) →
      (∀ kv ∈ ps, braceFree (pyStr kv.2) = true) →
      ∀ segs, segsOk segs →
        ps.foldl (fun out kv =>
            replaceAllCh out ('{' :: (kv.1.data ++ ['}'])) (pyStr kv.2).data)
          (flattenSegs segs) = flattenSegs (applyParams ps segs) := by
  intro ps
  induction ps with
  | nil => intro _ _ segs _; rfl
  | cons kv rest ih =>
    intro hkeys hvals segs hok
    have hkOk : nameOk kv.1 = true := hkeys kv (by simp)
    have hvOk : braceFree (pyStr kv.2) = true := hvals kv (by simp)
    rw [nameOk, Bool.and_eq_true] at hkOk
    have hkne : kv.1.data ≠ [] := by
      intro hq
      have hq2 : kv.1 = "" := by
        rw [← stringMk_data kv.1, hq]
      simp [hq2] at hkOk
    have hkch : ∀ ch ∈ kv.1.data, isNameChar ch = true := by
      have := hkOk.2
      rw [List.all_eq_true] at this
      exact fun ch hch => this ch hch
    have hrch : ∀ c ∈ (pyStr kv.2).data, c ≠ '{' ∧ c ≠ '}' := by
      rw [braceFree, List.all_eq_true] at hvOk
      intro c hc
      have hx := hvOk c hc
      constructor <;> rintro rfl <;> simp at hx
    simp only [List.foldl_cons]
    rw [replaceAllCh_flatten hkne hkch hrch hok]
    rw [ih (fun kv2 h2 => hkeys kv2 (by simp [h2]))
        (fun kv2 h2 => hvals kv2 (by simp [h2]))
        _ (replTok_segsOk hrch hok)]
    rfl

/-- Simultaneous substitution of one segment, by first-match lookup. -/
def substSeg (ps : List (String × PyVal)) : Seg → List Seg
  | .lit c => [.lit c]
  | .tok n =>
    match dGet ps (String.mk n) with
    | some v => (pyStr v).data.map .lit
    | Option.none => [.tok n]

/-- Simultaneous substitution at the segment level. -/
def substSegs (ps : List (String × PyVal)) (segs : List Seg) : List Seg :=
  segs.flatMap (substSeg ps)

@[simp] theorem substSegs_nil (ps : List (String × PyVal)) : substSegs ps [] = [] := rfl

theorem substSegs_cons (ps : List (String × PyVal)) (sg : Seg) (rest : List Seg) :
    substSegs ps (sg :: rest) = substSeg ps sg ++ substSegs ps rest := by
  simp [substSegs, List.flatMap_cons]

theorem substSegs_nil_params : ∀ segs, substSegs [] segs = segs := by
  intro segs
  induction segs with
  | nil => rfl
  | cons sg rest ih =>
    rw [substSegs_cons, ih]
    cases sg <;> simp [substSeg, dGet]

theorem substSegs_map_lit (ps : List (String × PyVal)) (rep : List Char) :
    substSegs ps (rep.map .lit) = rep.map .lit := by
  induction rep with
  | nil => rfl
  | cons c rest ih =>
    simp only [List.map_cons]
    rw [substSegs_cons, ih]
    rfl

theorem substSegs_append (ps : List (String × PyVal)) (a b : List Seg) :
    substSegs ps (a ++ b) = substSegs ps a ++ substSegs ps b := by
  simp [substSegs, List.flatMap_append]

theorem substSegs_replTok (kv : String × PyVal) (rest : List (String × PyVal)) :
    ∀ segs, substSegs rest (replTok kv.1.data (pyStr kv.2).data segs)
      = substSegs (kv :: rest) segs := by
  intro segs
  induction segs with
  | nil => rfl
  | cons sg segs2 ih =>
    cases sg with
    | lit c =>
      rw [replTok, substSegs_cons, substSegs_cons, ih]
      rfl
    | tok n =>
      rw [replTok, substSegs_append, ih, substSegs_cons]
      congr 1
      by_cases hnk : n = kv.1.data
      · rw [if_pos hnk, substSegs_map_lit]
        have hksn : kv.1 = String.mk n := by rw [hnk, stringMk_data]
        have hlook : dGet (kv :: rest) (String.mk n) = some kv.2 := by
          obtain ⟨k1, v1⟩ := kv
          simp only [dGet]
          rw [if_pos hksn]
        rw [substSeg, hlook]
      · rw [if_neg hnk]
        rw [substSegs_cons, substSegs_nil]
        rw [List.append_nil]
        have hlook : dGet (kv :: rest) (String.mk n) = dGet rest (String.mk n) := by
          obtain ⟨k1, v1⟩ := kv
          simp only [dGet]
          rw [if_neg (fun hq => hnk (by rw [hq]))]
        rw [substSeg, substSeg, hlook]

theorem applyParams_eq_subst :
    ∀ (ps : List (String × PyVal)) segs, applyParams ps segs = substSegs ps segs := by
  intro ps
  induction ps with
  | nil => intro segs; rw [applyParams, List.foldl_nil, substSegs_nil_params]
  | cons kv rest ih =>
    intro segs
    rw [applyParams, List.foldl_cons]
    rw [show List.foldl (fun sg kv => replTok kv.1.data (pyStr kv.2).data sg)
        (replTok kv.1.data (pyStr kv.2).data segs) rest
      = applyParams rest (replTok kv.1.data (pyStr kv.2).data segs) from rfl]
    rw [ih, substSegs_replTok]

theorem flatten_substSegs (ps : List (String × PyVal)) :
    ∀ segs, flattenSegs (substSegs ps segs) = renderSpecSegs ps segs := by
  intro segs
  induction segs with
  | nil => rfl
  | cons sg rest ih =>
    rw [substSegs_cons, flattenSegs_append, ih]
    cases sg with
    | lit c =>
      rw [substSeg, renderSpecSegs]
      rfl
    | tok n =>
      rw [substSeg, renderSpecSegs]
      cases hlook : dGet ps (String.mk n) with
      | none => simp [flattenSegs]
      | some v => simp [flattenSegs_map_lit]

theorem render_keyword_data (ps : List (String × PyVal)) :
    ∀ t : String, render_keyword t ps
      = String.mk (ps.foldl (fun out kv =>
          replaceAllCh out ('{' :: (kv.1.data ++ ['}'])) (pyStr kv.2).data) t.data) := by
  induction ps with
  | nil => intro t; rfl
  | cons kv rest ih =>
    intro t
    rw [render_keyword, List.foldl_cons, List.foldl_cons]
    rw [show (List.foldl (fun out kv =>
        strReplace out ("\x7b" ++ kv.1 ++ "\x7d") (pyStr kv.2))
        (strReplace t ("\x7b" ++ kv.1 ++ "\x7d") (pyStr kv.2)) rest : String)
      = render_keyword (strReplace t ("\x7b" ++ kv.1 ++ "\x7d") (pyStr kv.2)) rest
      from rfl]
    rw [ih]
    congr 1

/-- Sequential replacement coincides with the spec's simultaneous
substitution for brace-clean templates and brace-free parameter values. -/
theorem render_eq_renderSpec (template : String) (params : List (String × PyVal))
    (ht : templateOk template = true)
    (hkeys : ∀ kv ∈ params, nameOk kv.1 = true)
    (hvals : ∀ kv ∈ params, braceFree (pyStr kv.2) = true) :
    render_keyword template params = renderSpec template params := by
  rw [render_keyword_data]
  rw [show template.data = flattenSegs (scanSegs template.data) from
    (flatten_scanSegs _).symm]
  rw [foldl_replace_flatten params hkeys hvals _ (segsOk_scan ht)]
  rw [applyParams_eq_subst, flatten_substSegs]
  rw [renderSpec]

/-- C4 counterexample: `render_keyword` does NOT, for every template and
params mapping, replace each token by its own param value leaving other
tokens untouched — replacement is sequential per key, so a param value that
contains another key's token is substituted again.  At template `"{A}"` with
params `A ↦ "{B}", B ↦ "1"` the code yields `"1"`, while per-occurrence
replacement as claimed yields `"{B}"`. -/
theorem render_keyword_claim_counterexample :
    ¬ ∀ (template : String) (params : List (String × PyVal)),
        render_keyword template params = renderSpec template params := by
  intro hall
  have hc := hall "{A}" [("A", .str "{B}"), ("B", .str "1")]
  have h1 : render_keyword "{A}" [("A", .str "{B}"), ("B", .str "1")] = "1" := by
    simp [render_keyword, strReplace, replaceAllCh, List.isPrefixOf, pyStr]
  have h2 : renderSpec "{A}" [("A", .str "{B}"), ("B", .str "1")] = "\x7bB\x7d" := by
    simp [renderSpec, scanSegs, renderSpecSegs, dGet, List.dropWhile,
      List.takeWhile, isNameChar, pyStr]
  rw [h1, h2] at hc
  exact absurd hc (by decide)

/-- C4 (amended): `render_keyword` applies, for each mapping entry in order,
a global find/replace of that entry's token, so a parameter value containing
another entry's token is substituted again.  Whenever every brace in the
template belongs to a well-formed `\x7bNAME\x7d` token, every param key is a
nonempty placeholder name, and no stringified param value contains a brace,
the result coincides with the claim's per-occurrence substitution: every
token with an entry is replaced by the stringified value and every token
without an entry stays literally.  The claim's concrete examples hold:
rendering `"FreeAck;CH:{CH};"` with `CH ↦ "3"` gives `"FreeAck;CH:3;"`, and
`render_keyword_without_params` deletes every token: `"FreeAck;CH:;"`. -/
theorem render_keyword_amended :
    (∀ (template : String) (params : List (String × PyVal)),
      templateOk template = true →
      (∀ kv ∈ params, nameOk kv.1 = true) →
      (∀ kv ∈ params, braceFree (pyStr kv.2) = true) →
      render_keyword template params = renderSpec template params)
  ∧ render_keyword "FreeAck;CH:{CH};" [("CH", .str "3")] = "FreeAck;CH:3;"
  ∧ render_keyword_without_params "FreeAck;CH:{CH};" = "FreeAck;CH:;" := by
  refine ⟨fun template params ht hk hv => render_eq_renderSpec template params ht hk hv,
    ?_, ?_⟩
  · simp [render_keyword, strReplace, replaceAllCh, List.isPrefixOf, pyStr]
  · simp [render_keyword_without_params, scanSegs, stripTokensSegs, List.dropWhile,
      List.takeWhile, isNameChar]

/-- Witness for the amended C4 theorem at a concrete template and params. -/
theorem render_keyword_amended_witness :
    render_keyword "{CH};x" [("CH", .str "3")] = renderSpec "{CH};x" [("CH", .str "3")] := by
  refine render_keyword_amended.1 "{CH};x" [("CH", .str "3")] ?_ ?_ ?_
  · simp [templateOk, scanSegs, List.dropWhile, List.takeWhile, isNameChar]
  · intro kv hkv
    simp only [List.mem_singleton] at hkv
    subst hkv
    decide
  · intro kv hkv
    simp only [List.mem_singleton] at hkv
    subst hkv
    decide

/-! ## Keyword normalizer (`normalize_keywords`) -/

/-- `_desc_plain_from_rich(runs)`: concatenate the `text` of each dict run. -/
def _desc_plain_from_rich (runs : PyVal) : String :=
  match runs with
  | .list rs =>
    String.join (rs.filterMap (fun r =>
      match r with
      | .dict kvs =>
        let t := dGetD kvs "text" (.str "")
        if pyTruthy t then some (pyStr t) else Option.none
      | _ => Option.none))
  | _ => ""   -- `if not isinstance(runs, list): return ""`

/-- The `text`-fallback tail of one `normalize_keywords` iteration. -/
def normItemText (kvs : List (String × PyVal)) (summary group desc : String)
    (desc_rich : PyVal) : List PyVal :=
  let text := pyStrip (pyStr (dGetD kvs "text" (.str "")))
  if text = "" then []
  else
    [.dict ([("text", .str text), ("summary", .str summary), ("group", .str group),
             ("desc", .str desc)]
      ++ (if isList desc_rich && pyTruthy desc_rich
          then [("desc_rich", desc_rich)] else []))]

/-- One iteration of the `normalize_keywords` loop (producing 0 or 1 outputs;
`continue` = end of iteration). -/
def normItem (item : PyVal) : List PyVal :=
  match item with
  | .str s =>
    let t := pyStrip s
    if t = "" then []
    else [.dict [("text", .str t), ("summary", .str ""), ("group", .str ""),
                 ("desc", .str "")]]
  | .dict kvs =>
    let summary := pyStrip (pyStr (dGetD kvs "summary" (.str "")))
    let group := pyStrip (pyStr (dGetD kvs "group" (.str "")))
    let desc_rich := dGetD kvs "desc_rich" .none
    let desc0 := pyStrip (pyStr (dGetD kvs "desc" (dGetD kvs "description" (.str ""))))
    let desc := if isList desc_rich && pyTruthy desc_rich && desc0 = ""
      then pyStrip (_desc_plain_from_rich desc_rich) else desc0
    if dMem kvs "parts" && isList (dGetD kvs "parts" .none) then
      let parts := _clean_str_list_keep_order (asList (dGetD kvs "parts" .none))
      if parts ≠ [] then
        [.dict ([("parts", .list (parts.map PyVal.str)), ("summary", .str summary),
                 ("group", .str group), ("desc", .str desc)]
          ++ (if isList desc_rich && pyTruthy desc_rich
              then [("desc_rich", desc_rich)] else []))]
      else normItemText kvs summary group desc desc_rich
    else normItemText kvs summary group desc desc_rich
  | _ => []   -- `if not isinstance(item, dict): continue`

/-- `normalize_keywords(lst)`: the loop appends each iteration's outputs. -/
def normalize_keywords (lst : List PyVal) : List PyVal :=
  lst.flatMap normItem

/-- A string already in stripped form. -/
def cleanStr (s : String) : Prop := pyStrip s = s

/-- A parts list as stored: nonempty, each element stripped and nonempty. -/
def cleanParts (ps : List String) : Prop :=
  ps ≠ [] ∧ ∀ p ∈ ps, pyStrip p = p ∧ p ≠ ""

/-- The optional `desc_rich` binding carried on a normalized keyword. -/
def richOkFor (rich : List (String × PyVal)) (desc : String) : Prop :=
  rich = [] ∨ ∃ rs, rich = [("desc_rich", PyVal.list rs)] ∧ rs ≠ []
    ∧ (desc = "" → pyStrip (_desc_plain_from_rich (.list rs)) = "")

/-- The two shapes of a normalized keyword. -/
def canonicalKw (y : PyVal) : Prop :=
  (∃ ps s g d rich,
      y = .dict ([("parts", .list (ps.map PyVal.str)), ("summary", .str s),
                  ("group", .str g), ("desc", .str d)] ++ rich)
      ∧ cleanParts ps ∧ cleanStr s ∧ cleanStr g ∧ cleanStr d ∧ richOkFor rich d)
  ∨ (∃ t s g d rich,
      y = .dict ([("text", .str t), ("summary", .str s), ("group", .str g),
                  ("desc", .str d)] ++ rich)
      ∧ t ≠ "" ∧ cleanStr t ∧ cleanStr s ∧ cleanStr g ∧ cleanStr d ∧ richOkFor rich d)

theorem clean_mem {xs : List PyVal} {p : String}
    (hp : p ∈ _clean_str_list_keep_order xs) : pyStrip p = p ∧ p ≠ "" := by
  rw [_clean_str_list_keep_order] at hp
  obtain ⟨it, _, hit⟩ := List.mem_filterMap.mp hp
  by_cases hz : pyStrip (pyStr it) = ""
  · simp [hz] at hit
  · simp [hz] at hit
    subst hit
    exact ⟨pyStrip_idem _, hz⟩

theorem clean_of_cleaned {ps : List String}
    (h : ∀ p ∈ ps, pyStrip p = p ∧ p ≠ "") :
    _clean_str_list_keep_order (ps.map PyVal.str) = ps := by
  induction ps with
  | nil => rfl
  | cons p rest ih =>
    have hp := h p (by simp)
    simp only [List.map_cons, _clean_str_list_keep_order, List.filterMap_cons]
    rw [show pyStr (PyVal.str p) = p from rfl, hp.1, if_neg hp.2]
    rw [show List.filterMap _ (rest.map PyVal.str)
        = _clean_str_list_keep_order (rest.map PyVal.str) from rfl]
    rw [ih (fun q hq => h q (by simp [hq]))]

theorem normItemText_canonical {kvs : List (String × PyVal)}
    {summary group desc : String} {desc_rich : PyVal} {y : PyVal}
    (hs : cleanStr summary) (hg : cleanStr group) (hd : cleanStr desc)
    (hrich : richOkFor
      (if isList desc_rich && pyTruthy desc_rich
       then [("desc_rich", desc_rich)] else []) desc)
    (hy : y ∈ normItemText kvs summary group desc desc_rich) : canonicalKw y := by
  rw [normItemText] at hy
  by_cases ht : pyStrip (pyStr (dGetD kvs "text" (.str ""))) = ""
  · simp [ht] at hy
  · simp only [ht, if_false, List.mem_singleton] at hy
    subst hy
    right
    exact ⟨_, summary, group, desc, _, rfl, ht, pyStrip_idem _, hs, hg, hd, hrich⟩

theorem normItem_canonical : ∀ item y, y ∈ normItem item → canonicalKw y := by
  intro item y hy
  match item with
  | .str s =>
    rw [normItem] at hy
    by_cases ht : pyStrip s = ""
    · simp [ht] at hy
    · simp only [ht, if_false, List.mem_singleton] at hy
      subst hy
      right
      refine ⟨pyStrip s, "", "", "", [], by simp, ht, pyStrip_idem s, rfl, rfl, rfl,
        Or.inl rfl⟩
  | .int n => simp [normItem] at hy
  | .bool b => simp [normItem] at hy
  | .none => simp [normItem] at hy
  | .list xs => simp [normItem] at hy
  | .dict kvs =>
    rw [normItem] at hy
    set summary := pyStrip (pyStr (dGetD kvs "summary" (.str ""))) with hsum
    set group := pyStrip (pyStr (dGetD kvs "group" (.str ""))) with hgrp
    set desc_rich := dGetD kvs "desc_rich" .none with hdr
    set desc0 :=
      pyStrip (pyStr (dGetD kvs "desc" (dGetD kvs "description" (.str "")))) with hd0
    set desc := (if isList desc_rich && pyTruthy desc_rich && desc0 = ""
      then pyStrip (_desc_plain_from_rich desc_rich) else desc0) with hdsc
    have hs : cleanStr summary := pyStrip_idem _
    have hg : cleanStr group := pyStrip_idem _
    have hd : cleanStr desc := by
      rw [hdsc]
      by_cases hc : (isList desc_rich && pyTruthy desc_rich && desc0 = "") = true
      · rw [if_pos hc]; exact pyStrip_idem _
      · rw [if_neg hc]; exact pyStrip_idem _
    have hrich : richOkFor
        (if isList desc_rich && pyTruthy desc_rich
         then [("desc_rich", desc_rich)] else []) desc := by
      by_cases hc : (isList desc_rich && pyTruthy desc_rich) = true
      · rw [if_pos hc]
        obtain ⟨rs, hrs⟩ : ∃ rs, desc_rich = .list rs := by
          rcases hdr2 : desc_rich with _ | _ | _ | _ | xs | _ <;>
            rw [hdr2] at hc <;> simp [isList] at hc
          exact ⟨xs, rfl⟩
        right
        refine ⟨rs, by rw [hrs], ?_, ?_⟩
        · rw [hrs] at hc
          simp [pyTruthy] at hc
          intro hq
          rw [hq] at hc
          simp at hc
        · intro hdesc
          rw [hdsc] at hdesc
          by_cases hz : desc0 = ""
          · rw [if_pos (by simp [hc, hz])] at hdesc
            rw [← hrs]
            exact hdesc
          · rw [if_neg (by simp [hz])] at hdesc
            exact absurd hdesc hz
      · rw [if_neg hc]
        exact Or.inl rfl
    by_cases hpc : (dMem kvs "parts" && isList (dGetD kvs "parts" .none)) = true
    · rw [if_pos hpc] at hy
      by_cases hpe : _clean_str_list_keep_order (asList (dGetD kvs "parts" .none)) ≠ []
      · rw [if_pos hpe] at hy
        simp only [List.mem_singleton] at hy
        subst hy
        left
        refine ⟨_, summary, group, desc, _, ?_, ⟨hpe, fun p hp => clean_mem hp⟩,
          hs, hg, hd, hrich⟩
        rfl
      · rw [if_neg hpe] at hy
        exact normItemText_canonical hs hg hd hrich hy
    · rw [if_neg hpc] at hy
      exact normItemText_canonical hs hg hd hrich hy

theorem canonical_fixed {y : PyVal} (hy : canonicalKw y) : normItem y = [y] := by
  rcases hy with ⟨ps, s, g, d, rich, rfl, hps, hs, hg, hd, hrich⟩ |
    ⟨t, s, g, d, rich, rfl, ht, htc, hs, hg, hd, hrich⟩
  · -- parts-based keyword
    have hs2 : pyStrip s = s := hs
    have hg2 : pyStrip g = g := hg
    have hd2 : pyStrip d = d := hd
    have hcl := clean_of_cleaned hps.2
    rcases hrich with rfl | ⟨rs, rfl, hrs, hre⟩
    · rw [List.append_nil, normItem]
      simp [dGetD, dGet, dMem, isList, asList, pyTruthy, hs2, hg2, hd2, hcl, hps.1]
    · have hrs2 : rs.isEmpty = false := by
        cases rs
        · exact absurd rfl hrs
        · rfl
      by_cases hdz : d = ""
      · subst hdz
        rw [normItem]
        simp [dGetD, dGet, dMem, isList, asList, pyTruthy, hs2, hg2, hcl, hps.1,
          hrs2, hre rfl]
      · rw [normItem]
        simp [dGetD, dGet, dMem, isList, asList, pyTruthy, hs2, hg2, hd2, hcl,
          hps.1, hrs2, hdz]
  · -- text-based keyword
    have hs2 : pyStrip s = s := hs
    have hg2 : pyStrip g = g := hg
    have hd2 : pyStrip d = d := hd
    have ht2 : pyStrip t = t := htc
    rcases hrich with rfl | ⟨rs, rfl, hrs, hre⟩
    · rw [List.append_nil, normItem]
      simp [dGetD, dGet, dMem, isList, asList, pyTruthy, normItemText, hs2, hg2,
        hd2, ht2, ht]
    · have hrs2 : rs.isEmpty = false := by
        cases rs
        · exact absurd rfl hrs
        · rfl
      by_cases hdz : d = ""
      · subst hdz
        rw [normItem]
        simp [dGetD, dGet, dMem, isList, asList, pyTruthy, normItemText, hs2, hg2,
          ht2, ht, hrs2, hre rfl]
      · rw [normItem]
        simp [dGetD, dGet, dMem, isList, asList, pyTruthy, normItemText, hs2, hg2,
          hd2, ht2, ht, hrs2, hdz]

theorem flatMap_fixed {M : List PyVal} (h : ∀ y ∈ M, normItem y = [y]) :
    M.flatMap normItem = M := by
  induction M with
  | nil => rfl
  | cons y M ih =>
    rw [List.flatMap_cons, h y (by simp), ih (fun z hz => h z (by simp [hz]))]
    rfl

/-- C2: `normalize_keywords` is idempotent — normalizing an already-normalized
list returns it unchanged, element for element, for every raw input list. -/
theorem normalize_keywords_idempotent :
    ∀ L, normalize_keywords (normalize_keywords L) = normalize_keywords L := by
  intro L
  rw [show normalize_keywords (normalize_keywords L)
    = (normalize_keywords L).flatMap normItem from rfl]
  refine flatMap_fixed ?_
  intro y hy
  rw [normalize_keywords] at hy
  obtain ⟨item, _, hmem⟩ := List.mem_flatMap.mp hy
  exact canonical_fixed (normItem_canonical item y hmem)

/-- The C6 storage invariant: a stored keyword has a nonempty cleaned parts
list or a nonempty trimmed text. -/
def keywordHasContent (kw : PyVal) : Prop :=
  (∃ xs, dGet (asDict kw) "parts" = some (.list xs)
    ∧ _clean_str_list_keep_order xs ≠ [])
  ∨ pyStrip (pyStr (dGetD (asDict kw) "text" (.str ""))) ≠ ""

theorem canonical_hasContent {y : PyVal} (hy : canonicalKw y) :
    keywordHasContent y := by
  rcases hy with ⟨ps, s, g, d, rich, rfl, hps, -, -, -, -⟩ |
    ⟨t, s, g, d, rich, rfl, ht, htc, -, -, -, -⟩
  · left
    refine ⟨ps.map PyVal.str, ?_, ?_⟩
    · simp [asDict, dGet]
    · rw [clean_of_cleaned hps.2]
      exact hps.1
  · right
    have ht2 : pyStrip t = t := htc
    simp [asDict, dGetD, dGet, ht2, ht]

/-- `KeywordDialog._get_parts()`: each row entry stripped, empties skipped.
The raw entry texts are passed explicitly. -/
def dialog_get_parts (entries : List String) : List String :=
  entries.filterMap (fun e =>
    let s := pyStrip e
    if s = "" then Option.none else some s)

/-- `KeywordDialog._ok()`: refuse (no result, dialog stays open) when the
cleaned parts list is empty; otherwise produce the keyword record.  The
summary/group/desc values and serialized rich runs are passed explicitly. -/
def keywordDialog_ok (entries : List String) (summary group desc : String)
    (desc_rich : List PyVal) : Option PyVal :=
  let parts := dialog_get_parts entries
  if parts = [] then Option.none   -- warning shown, operation aborted
  else some (.dict [("parts", .list (parts.map PyVal.str)),
    ("summary", .str (pyStrip summary)), ("group", .str (pyStrip group)),
    ("desc", .str (pyStrip desc)), ("desc_rich", .list desc_rich)])

theorem dialog_parts_clean {entries : List String} {p : String}
    (hp : p ∈ dialog_get_parts entries) : pyStrip p = p ∧ p ≠ "" := by
  rw [dialog_get_parts] at hp
  obtain ⟨e, _, he⟩ := List.mem_filterMap.mp hp
  by_cases hz : pyStrip e = ""
  · simp [hz] at he
  · simp [hz] at he
    subst he
    exact ⟨pyStrip_idem _, hz⟩

/-- C6: every keyword produced by `normalize_keywords` has a nonempty cleaned
parts list or a nonempty trimmed text, and the keyword dialog's OK action
refuses to produce a result exactly when the cleaned parts list is empty —
any keyword it does emit has a nonempty cleaned parts list. -/
theorem keyword_storage_invariant :
    (∀ L kw, kw ∈ normalize_keywords L → keywordHasContent kw)
  ∧ (∀ entries summary group desc desc_rich,
      keywordDialog_ok entries summary group desc desc_rich = Option.none
        ↔ dialog_get_parts entries = [])
  ∧ (∀ entries summary group desc desc_rich kw,
      keywordDialog_ok entries summary group desc desc_rich = some kw →
      keywordHasContent kw) := by
  refine ⟨?_, ?_, ?_⟩
  · intro L kw hkw
    rw [normalize_keywords] at hkw
    obtain ⟨item, _, hmem⟩ := List.mem_flatMap.mp hkw
    exact canonical_hasContent (normItem_canonical item kw hmem)
  · intro entries summary group desc desc_rich
    rw [keywordDialog_ok]
    by_cases hp : dialog_get_parts entries = []
    · simp [hp]
    · simp [hp]
  · intro entries summary group desc desc_rich kw hkw
    rw [keywordDialog_ok] at hkw
    by_cases hp : dialog_get_parts entries = []
    · simp [hp] at hkw
    · simp only [hp, if_false, Option.some.injEq] at hkw
      subst hkw
      left
      refine ⟨(dialog_get_parts entries).map PyVal.str, by simp [asDict, dGet], ?_⟩
      rw [clean_of_cleaned (fun p hq => dialog_parts_clean hq)]
      exact hp

/-- Witness for C6 at a concrete normalized keyword. -/
theorem keyword_storage_invariant_witness :
    keywordHasContent (.dict [("text", PyVal.str "A"), ("summary", PyVal.str ""),
      ("group", PyVal.str ""), ("desc", PyVal.str "")]) :=
  keyword_storage_invariant.1 [PyVal.str "A"] _ (by
    simp [normalize_keywords, normItem, pyStrip, stripChars, List.dropWhile, pySpace])

/-! ## Durable write (`_safe_atomic_write_text`)

The I/O itself (tmp file, fsync, `os.replace`) is abstracted: `oc i = none`
means attempt `i` succeeds, `oc i = some e` means it raises error `e`.  The
embedded function returns the event trace of the loop and the raised error
(`none` = returned normally). -/

/-- `delays = [0.0, 0.03, 0.06, 0.12, 0.25, 0.5, 0.9]` seconds, in ms. -/
def writeDelays : List Nat := [0, 30, 60, 120, 250, 500, 900]

inductive WriteEvent where
  | attemptWrite (i : Nat)   -- tmp write + flush + fsync + os.replace attempted
  | removeTmp (i : Nat)      -- `tmp_path.unlink(missing_ok=True)` after a failure
  | sleep (ms : Nat)         -- `time.sleep(delay)` (executed only when delay > 0)
deriving DecidableEq

/-- The retry loop body of `_safe_atomic_write_text`: attempts `i, i+1, …`
while `remaining` attempts are left, carrying `last_err`. -/
def safeWriteLoop (oc : Nat → Option Nat) :
    Nat → Nat → Option Nat → List WriteEvent × Option Nat
  | 0, _, lastErr => ([], lastErr)   -- loop over: `raise last_err`
  | remaining + 1, i, _ =>
    match oc i with
    | Option.none => ([.attemptWrite i], Option.none)   -- `os.replace` done: return
    | some e =>
      -- `delay = delays[attempt] if attempt < len(delays) else delays[-1]`
      let delay := if i < writeDelays.length then writeDelays.getD i 0
        else writeDelays.getLastD 0
      let evs := [WriteEvent.attemptWrite i, WriteEvent.removeTmp i]
        ++ (if delay > 0 then [WriteEvent.sleep delay] else [])
      let rest := safeWriteLoop oc remaining (i + 1) (some e)
      (evs ++ rest.1, rest.2)

/-- `_safe_atomic_write_text(path, text, retries=7)` control flow:
`for attempt in range(max(1, retries))`, then `raise last_err`. -/
def _safe_atomic_write_text (oc : Nat → Option Nat) (retries : Nat := 7) :
    List WriteEvent × Option Nat :=
  safeWriteLoop oc (max 1 retries) 0 Option.none

theorem safeWriteLoop_success (oc : Nat → Option Nat) :
    ∀ (remaining i : Nat) (le : Option Nat) (j : Nat),
      i ≤ j → j < i + remaining → oc j = Option.none →
      (∀ u, i ≤ u → u < j → oc u ≠ Option.none) →
      (safeWriteLoop oc remaining i le).2 = Option.none := by
  intro remaining
  induction remaining with
  | zero => intro i le j h1 h2; omega
  | succ r ih =>
    intro i le j h1 h2 hj hprev
    rw [safeWriteLoop]
    cases hoc : oc i with
    | none => rfl
    | some e =>
      have hij : i ≠ j := fun hq => by rw [hq, hj] at hoc; cases hoc
      exact ih (i + 1) (some e) j (by omega) (by omega) hj
        (fun u hu1 hu2 => hprev u (by omega) hu2)

theorem safeWriteLoop_allFail (oc : Nat → Option Nat) :
    ∀ (remaining i : Nat) (le : Option Nat),
      0 < remaining →
      (∀ u, i ≤ u → u < i + remaining → oc u ≠ Option.none) →
      (safeWriteLoop oc remaining i le).2 = oc (i + remaining - 1) := by
  intro remaining
  induction remaining with
  | zero => intro i le h; omega
  | succ r ih =>
    intro i le _ hfail
    rw [safeWriteLoop]
    cases hoc : oc i with
    | none => exact absurd hoc (hfail i (by omega) (by omega))
    | some e =>
      cases r with
      | zero =>
        show (some e : Option Nat) = oc (i + 1 - 1)
        simp only [Nat.add_sub_cancel]
        exact hoc.symm
      | succ r2 =>
        show (safeWriteLoop oc (r2 + 1) (i + 1) (some e)).2 = _
        rw [ih (i + 1) (some e) (by omega)
          (fun u hu1 hu2 => hfail u (by omega) (by omega))]
        congr 1
        omega

theorem safeWriteLoop_failEvents (oc : Nat → Option Nat) :
    ∀ (remaining i : Nat) (le : Option Nat) (j : Nat),
      i ≤ j → j < i + remaining →
      (∀ u, i ≤ u → u ≤ j → oc u ≠ Option.none) →
      WriteEvent.removeTmp j ∈ (safeWriteLoop oc remaining i le).1
      ∧ ((if j < writeDelays.length then writeDelays.getD j 0
          else writeDelays.getLastD 0) > 0 →
         WriteEvent.sleep (if j < writeDelays.length then writeDelays.getD j 0
           else writeDelays.getLastD 0) ∈ (safeWriteLoop oc remaining i le).1) := by
  intro remaining
  induction remaining with
  | zero => intro i le j h1 h2; omega
  | succ r ih =>
    intro i le j h1 h2 hfail
    rw [safeWriteLoop]
    cases hoc : oc i with
    | none => exact absurd hoc (hfail i (by omega) h1)
    | some e =>
      by_cases hij : j = i
      · subst hij
        constructor
        · simp
        · intro hpos
          simp [hpos]
          left
          simpa using hpos
      · have hrec := ih (i + 1) (some e) j (by omega) (by omega)
          (fun u hu1 hu2 => hfail u (by omega) hu2)
        constructor
        · simp only [List.append_assoc, List.mem_append]
          right
          right
          exact hrec.1
        · intro hpos
          simp only [List.append_assoc, List.mem_append]
          right
          right
          exact hrec.2 hpos

theorem safeWriteLoop_attempt_bound (oc : Nat → Option Nat) :
    ∀ (remaining i : Nat) (le : Option Nat) (j : Nat),
      WriteEvent.attemptWrite j ∈ (safeWriteLoop oc remaining i le).1 →
      i ≤ j ∧ j < i + remaining := by
  intro remaining
  induction remaining with
  | zero => intro i le j h; rw [safeWriteLoop] at h; cases h
  | succ r ih =>
    intro i le j h
    rw [safeWriteLoop] at h
    cases hoc : oc i with
    | none =>
      rw [hoc] at h
      simp only [List.mem_singleton] at h
      cases h
      omega
    | some e =>
      rw [hoc] at h
      rcases List.mem_append.mp h with hL | hR
      · rcases List.mem_append.mp hL with hA | hS
        · simp only [List.mem_cons, List.mem_singleton, List.not_mem_nil,
            or_false] at hA
          rcases hA with hA | hA
          · cases hA; omega
          · cases hA
        · by_cases hpos : ((if i < writeDelays.length then writeDelays.getD i 0
              else writeDelays.getLastD 0) > 0)
          · rw [if_pos hpos] at hS
            simp at hS
          · rw [if_neg hpos] at hS
            cases hS
      · have := ih (i + 1) (some e) j hR
        omega

/-- C7: on each failed attempt the write routine removes the temp file and
waits the backoff delay taken from the bounded sequence
`[0, 30, 60, 120, 250, 500, 900]` ms (`delays[attempt]` while in range, the
last value once exhausted; a sleep is issued exactly when the delay is
positive); it retries up to `max 1 retries` attempts (7 by default); if some
attempt succeeds before the budget runs out it returns normally, and if every
attempt fails it raises the error of the last attempt to the caller. -/
theorem safe_atomic_write_retry_spec :
    (∀ (oc : Nat → Option Nat) (retries i : Nat),
      i < max 1 retries → oc i = Option.none →
      (∀ j, j < i → oc j ≠ Option.none) →
      (_safe_atomic_write_text oc retries).2 = Option.none)
  ∧ (∀ (oc : Nat → Option Nat) (retries : Nat),
      (∀ i, i < max 1 retries → oc i ≠ Option.none) →
      (_safe_atomic_write_text oc retries).2 = oc (max 1 retries - 1))
  ∧ (∀ (oc : Nat → Option Nat) (retries i : Nat),
      i < max 1 retries → (∀ j, j ≤ i → oc j ≠ Option.none) →
      WriteEvent.removeTmp i ∈ (_safe_atomic_write_text oc retries).1
      ∧ ((if i < writeDelays.length then writeDelays.getD i 0
          else writeDelays.getLastD 0) > 0 →
         WriteEvent.sleep (if i < writeDelays.length then writeDelays.getD i 0
           else writeDelays.getLastD 0) ∈ (_safe_atomic_write_text oc retries).1))
  ∧ (∀ (oc : Nat → Option Nat) (retries i : Nat),
      WriteEvent.attemptWrite i ∈ (_safe_atomic_write_text oc retries).1 →
      i < max 1 retries)
  ∧ writeDelays = [0, 30, 60, 120, 250, 500, 900] := by
  refine ⟨?_, ?_, ?_, ?_, rfl⟩
  · intro oc retries i h1 h2 h3
    exact safeWriteLoop_success oc (max 1 retries) 0 Option.none i (by omega)
      (by omega) h2 (fun u _ hu => h3 u hu)
  · intro oc retries hfail
    rw [_safe_atomic_write_text,
      safeWriteLoop_allFail oc (max 1 retries) 0 Option.none (by omega)
        (fun u _ hu => hfail u (by omega))]
    congr 1
    omega
  · intro oc retries i h1 h2
    exact safeWriteLoop_failEvents oc (max 1 retries) 0 Option.none i (by omega)
      (by omega) (fun u _ hu => h2 u hu)
  · intro oc retries i h
    have := safeWriteLoop_attempt_bound oc (max 1 retries) 0 Option.none i h
    omega

/-- Witness for C7: with the first two attempts failing and the third
succeeding, the routine returns normally. -/
theorem safe_atomic_write_retry_spec_witness :
    (_safe_atomic_write_text (fun i => if i < 2 then some 5 else Option.none) 7).2
      = Option.none :=
  safe_atomic_write_retry_spec.1 (fun i => if i < 2 then some 5 else Option.none)
    7 2 (by decide) (by decide) (by decide)

/-! ## Issue/Vendor config reconciler

`ensure_issue_config_vendor_scoped` (pure function in the source) and
`_sync_vendor_scoped_config_with_db` (app method mutating `self.db` /
`self.issue_cfg`; embedded as a function of both, returning the new values
and the changed-flags that drive the persist calls). -/

/-- The strip/dedup loop over a configured issues list (`seen` set and
`cleaned` list carried exactly as in the source). -/
def cleanDedupAux : List PyVal → List String → List String → List String
  | [], _, acc => acc
  | it :: rest, seen, acc =>
    let s := pyStrip (pyStr it)
    if s = "" ∨ s ∈ seen then cleanDedupAux rest seen acc
    else cleanDedupAux rest (s :: seen) (acc ++ [s])

def cleanDedup (issues : List PyVal) : List String := cleanDedupAux issues [] []

/-- Per-vendor body of the `for v in vendors` loop of
`ensure_issue_config_vendor_scoped`.  `cfg["vendors"]` is a dict here
(guaranteed by the guard before the loop). -/
def ensureVendor (cfg : List (String × PyVal)) (v : String) : List (String × PyVal) :=
  let vd := asDict (dGetD cfg "vendors" .none)
  -- `vobj = cfg["vendors"].get(v)`; if not a dict, replaced by `{}`
  let vobj := match dGet vd v with
    | some (.dict kvs) => kvs
    | _ => []
  -- issues handling
  let issues := dGetD vobj "issues" .none
  let vobj1 := match issues with
    | .list xs =>
      if xs.isEmpty then dSet vobj "issues" (.list (default_issues.map PyVal.str))
      else
        let cleaned := cleanDedup xs
        dSet vobj "issues"
          (.list ((if cleaned.isEmpty then default_issues else cleaned).map PyVal.str))
    | _ => dSet vobj "issues" (.list (default_issues.map PyVal.str))
  -- delimiter handling
  let delimV := dGetD vobj1 "delimiter" (.str DEFAULT_DELIMITER)
  let delimS := match delimV with
    | .none => DEFAULT_DELIMITER   -- `str(delim) if delim is not None else DEFAULT`
    | x => pyStr x
  let vobj2 := dSet vobj1 "delimiter" (.str delimS)
  dSet cfg "vendors" (.dict (dSet vd v (.dict vobj2)))

/-- `ensure_issue_config_vendor_scoped(cfg, vendors)`. -/
def ensure_issue_config_vendor_scoped (cfg : PyVal) (vendors : List String) : PyVal :=
  -- `if not isinstance(cfg, dict): cfg = {}`
  let cfg0 := asDict cfg
  -- legacy flat schema: `"issues" in cfg and "vendors" not in cfg`
  let cfg1 := if dMem cfg0 "issues" && !(dMem cfg0 "vendors") then
      let shared := dGetD cfg0 "issues" .none
      let sharedL := match shared with
        | .list xs => if xs.isEmpty then default_issues.map PyVal.str else xs
        | _ => default_issues.map PyVal.str
      -- `{v: {"issues": list(shared), "delimiter": ";"} for v in vendors}`
      [("vendors", PyVal.dict (vendors.foldl (fun d v =>
          dSet d v (.dict [("issues", .list sharedL),
            ("delimiter", .str DEFAULT_DELIMITER)])) []))]
    else cfg0
  let cfg2 := dSetdefault cfg1 "vendors" (.dict [])
  let cfg3 := if isDict (dGetD cfg2 "vendors" .none) then cfg2
    else dSet cfg2 "vendors" (.dict [])
  .dict (vendors.foldl ensureVendor cfg3)

/-- `_default_issue_obj()`. -/
def _default_issue_obj : PyVal :=
  .dict [("_COMMON", .dict [("_keywords", .list []), ("_params", .dict [])])]

/-- `_default_db()`. -/
def _default_db : List (String × PyVal) :=
  ["MTK", "SLSI"].foldl (fun out v =>
    dSet out v (.dict (default_issues.foldl (fun d i => dSet d i _default_issue_obj) []))) []

/-- `_get_vendor_cfg(vendor)`: note the `if vendor else {}` guard — a falsy
(empty) vendor name reads `{}`.  Non-dict intermediate values would raise in
Python (unreachable after `ensure_issue_config_vendor_scoped`); they read as
`{}` here. -/
def _get_vendor_cfg (cfg : PyVal) (v : String) : List (String × PyVal) :=
  if v = "" then []
  else asDict (dGetD (asDict (dGetD (asDict cfg) "vendors" (.dict []))) v (.dict []))

/-- `_get_vendor_issues(vendor)`: `list(issues) if isinstance(issues, list) else []`. -/
def _get_vendor_issues (cfg : PyVal) (v : String) : List PyVal :=
  match dGetD (_get_vendor_cfg cfg v) "issues" (.list []) with
  | .list xs => xs
  | _ => []

/-- `_set_vendor_issues(vendor, issues)`. -/
def _set_vendor_issues (cfg : PyVal) (v : String) (issues : List PyVal) : PyVal :=
  let kvs := asDict cfg
  let kvs1 := dSetdefault kvs "vendors" (.dict [])
  let vd := asDict (dGetD kvs1 "vendors" .none)
  let vd1 := dSetdefault vd v (.dict [])
  let vobj := asDict (dGetD vd1 v .none)
  let vobj1 := dSet vobj "issues" (.list issues)
  .dict (dSet kvs1 "vendors" (.dict (dSet vd1 v (.dict vobj1))))

/-- `_get_vendor_delimiter(vendor)` (always returns a string). -/
def _get_vendor_delimiter (cfg : PyVal) (v : String) : String :=
  let delim := dGetD (_get_vendor_cfg cfg v) "delimiter" (.str DEFAULT_DELIMITER)
  match delim with
  | .none => DEFAULT_DELIMITER
  | x => pyStr x

/-- The `for it in existing_db_issues` append loop: strip the key, skip
blanks and names already `seen`, append the rest to the config list. -/
def appendDbIssues : List String → List PyVal → List PyVal → Bool →
    List PyVal × List PyVal × Bool
  | [], seen, acc, appended => (seen, acc, appended)
  | k :: rest, seen, acc, appended =>
    let s := pyStrip k   -- `str(it).strip()` (keys are strings)
    if s = "" ∨ PyVal.str s ∈ seen then appendDbIssues rest seen acc appended
    else appendDbIssues rest (PyVal.str s :: seen) (acc ++ [PyVal.str s]) true

/-- The `for issue_name in cfg_list` creation loop: create a default issue
object for names missing from the vendor's db subtree.  Non-string entries
are unreachable (the preceding `ensure_issue_config_vendor_scoped` rewrites
every configured issues list to strings). -/
def createIssues : List PyVal → List (String × PyVal) → Bool →
    List (String × PyVal) × Bool
  | [], dbv, changed => (dbv, changed)
  | .str s :: rest, dbv, changed =>
    if dMem dbv s then createIssues rest dbv changed
    else createIssues rest (dbv ++ [(s, _default_issue_obj)]) true
  | _ :: rest, dbv, changed => createIssues rest dbv changed

structure SyncResult where
  db : List (String × PyVal)
  cfg : PyVal
  changed_db : Bool
  changed_cfg : Bool
deriving DecidableEq

/-- One iteration of the `for v in vendors` loop of
`_sync_vendor_scoped_config_with_db`. -/
def syncVendorStep (st : SyncResult) (v : String) : SyncResult :=
  -- `self.db.setdefault(v, {})`; `if not isinstance(self.db[v], dict): self.db[v] = {}`
  let db1 := dSetdefault st.db v (.dict [])
  let dbv := asDict (dGetD db1 v .none)
  let db2 := dSet db1 v (.dict dbv)
  -- `cfg_list = self._get_vendor_issues(v)`; default if empty
  let cfgList0 := _get_vendor_issues st.cfg v
  let cfgList1 := if cfgList0.isEmpty then default_issues.map PyVal.str else cfgList0
  let cfgA := if cfgList0.isEmpty then _set_vendor_issues st.cfg v cfgList1 else st.cfg
  let changedCfgA := if cfgList0.isEmpty then true else st.changed_cfg
  -- `existing_db_issues = [str(x) for x in self.db[v].keys()]`; append loop
  let existing := dbv.map Prod.fst
  let app := appendDbIssues existing cfgList1 cfgList1 false
  let cfgList2 := app.2.1
  let appended := app.2.2
  let cfgB := if appended then _set_vendor_issues cfgA v cfgList2 else cfgA
  let changedCfgB := if appended then true else changedCfgA
  -- issue-creation loop
  let created := createIssues cfgList2 dbv st.changed_db
  let db3 := dSet db2 v (.dict created.1)
  -- `_get_vendor_delimiter` never returns None: the `if delim is None` branch is dead
  { db := db3, cfg := cfgB, changed_db := created.2, changed_cfg := changedCfgB }

/-- `_sync_vendor_scoped_config_with_db()` on the in-memory `db`/`issue_cfg`
values (the trailing `save_json` calls are I/O driven by the returned flags). -/
def _sync_vendor_scoped_config_with_db (db0 cfg0 : PyVal) : SyncResult :=
  -- `if not isinstance(self.db, dict): self.db = self._default_db()`
  let db := match db0 with
    | .dict kvs => kvs
    | _ => _default_db
  let vendors := db.map Prod.fst   -- `vendors = list(self.db.keys())`
  let cfg := ensure_issue_config_vendor_scoped cfg0 vendors
  vendors.foldl syncVendorStep
    { db := db, cfg := cfg, changed_db := false, changed_cfg := false }

/-- The stored issues list of `cfg["vendors"][v]["issues"]` (no falsy-vendor
guard: the raw stored value, `[]` when absent or not a list). -/
def storedIssues (cfg : PyVal) (v : String) : List PyVal :=
  match dGet (asDict (dGetD (asDict cfg) "vendors" (.dict []))) v with
  | some (.dict vobj) =>
    match dGet vobj "issues" with
    | some (.list xs) => xs
    | _ => []
  | _ => []

/-- `if not isinstance(self.db, dict): self.db = self._default_db()`. -/
def coerceDb (db0 : PyVal) : List (String × PyVal) :=
  match db0 with
  | .dict kvs => kvs
  | _ => _default_db

/-- A clean stored issues list: string entries, nonempty, deduplicated,
each stripped and nonblank. -/
def cleanIssues (ss : List String) : Prop :=
  ss ≠ [] ∧ ss.Nodup ∧ ∀ s ∈ ss, pyStrip s = s ∧ s ≠ ""

/-- The per-vendor config entry shape guaranteed by
`ensure_issue_config_vendor_scoped` for every processed vendor. -/
def cfgEnsured (cfg : PyVal) (vendors : List String) : Prop :=
  ∃ kvs vd, cfg = .dict kvs ∧ dGet kvs "vendors" = some (.dict vd)
    ∧ ∀ v ∈ vendors, ∃ vobj, dGet vd v = some (.dict vobj)
      ∧ (∃ ss : List String, dGet vobj "issues" = some (.list (ss.map PyVal.str))
          ∧ cleanIssues ss)
      ∧ (∃ d, dGet vobj "delimiter" = some (.str d))

/-! ### Ordered-dict auxiliary lemmas -/

theorem dMem_of_dGet {kvs : List (String × PyVal)} {k : String} {v : PyVal}
    (h : dGet kvs k = some v) : dMem kvs k = true := by
  rw [dMem, h]
  rfl

theorem dGetD_eq {kvs : List (String × PyVal)} {k : String} {v : PyVal}
    (h : dGet kvs k = some v) (dflt : PyVal) : dGetD kvs k dflt = v := by
  rw [dGetD, h]
  rfl

theorem keys_dSetdefault_of_mem {kvs : List (String × PyVal)} {k : String}
    (h : dMem kvs k = true) (v : PyVal) :
    dSetdefault kvs k v = kvs := by
  rw [dSetdefault, if_pos h]

/-! ### `cleanDedup` lemmas -/

theorem cleanDedupAux_clean :
    ∀ (xs : List PyVal) (seen acc : List String),
      acc.Nodup → (∀ a ∈ acc, a ∈ seen) →
      (∀ a ∈ acc, pyStrip a = a ∧ a ≠ "") →
      (cleanDedupAux xs seen acc).Nodup
      ∧ (∀ a ∈ cleanDedupAux xs seen acc, pyStrip a = a ∧ a ≠ "") := by
  intro xs
  induction xs with
  | nil => intro seen acc h1 _ h3; exact ⟨h1, h3⟩
  | cons it rest ih =>
    intro seen acc h1 h2 h3
    rw [cleanDedupAux]
    by_cases hc : pyStrip (pyStr it) = "" ∨ pyStrip (pyStr it) ∈ seen
    · rw [if_pos hc]
      exact ih seen acc h1 h2 h3
    · rw [if_neg hc]
      push_neg at hc
      refine ih _ _ ?_ ?_ ?_
      · rw [List.nodup_append]
        refine ⟨h1, by simp, ?_⟩
        intro a ha
        simp only [List.mem_singleton]
        exact fun hq => hc.2 (hq ▸ h2 a ha)
      · intro a ha
        rcases List.mem_append.mp ha with ha | ha
        · exact List.mem_cons_of_mem _ (h2 a ha)
        · simp only [List.mem_singleton] at ha
          subst ha
          simp
      · intro a ha
        rcases List.mem_append.mp ha with ha | ha
        · exact h3 a ha
        · simp only [List.mem_singleton] at ha
          subst ha
          exact ⟨pyStrip_idem _, hc.1⟩

theorem cleanDedup_clean (xs : List PyVal) :
    (cleanDedup xs).Nodup ∧ ∀ a ∈ cleanDedup xs, pyStrip a = a ∧ a ≠ "" :=
  cleanDedupAux_clean xs [] [] (by simp) (by simp) (by simp)

theorem cleanDedupAux_stable :
    ∀ (ss : List String) (seen acc : List String),
      ss.Nodup → (∀ s ∈ ss, pyStrip s = s ∧ s ≠ "") → (∀ s ∈ ss, s ∉ seen) →
      cleanDedupAux (ss.map PyVal.str) seen acc = acc ++ ss := by
  intro ss
  induction ss with
  | nil => intro seen acc _ _ _; simp [cleanDedupAux]
  | cons s rest ih =>
    intro seen acc hnd hcl hns
    have hcs := hcl s (by simp)
    simp only [List.map_cons, cleanDedupAux, pyStr_str, hcs.1]
    rw [if_neg (by
      push_neg
      exact ⟨hcs.2, hns s (by simp)⟩)]
    rw [ih (s :: seen) (acc ++ [s]) (List.Nodup.of_cons hnd)
      (fun q hq => hcl q (by simp [hq]))
      (fun q hq => by
        simp only [List.mem_cons]
        push_neg
        constructor
        · intro he
          subst he
          exact (List.nodup_cons.mp hnd).1 hq
        · exact hns q (by simp [hq]))]
    simp

theorem cleanDedup_stable (ss : List String) (hnd : ss.Nodup)
    (hcl : ∀ s ∈ ss, pyStrip s = s ∧ s ≠ "") :
    cleanDedup (ss.map PyVal.str) = ss := by
  rw [cleanDedup, cleanDedupAux_stable ss [] [] hnd hcl (by simp)]
  rfl

theorem dGet_append (kvs kvs2 : List (String × PyVal)) (k : String) :
    dGet (kvs ++ kvs2) k
      = match dGet kvs k with
        | some v => some v
        | Option.none => dGet kvs2 k := by
  induction kvs with
  | nil => simp [dGet]
  | cons kv rest ih =>
    obtain ⟨k2, v2⟩ := kv
    by_cases h : k2 = k
    · simp [dGet, h]
    · simp only [List.cons_append, dGet, if_neg h]
      exact ih

theorem default_issues_clean : cleanIssues default_issues := by
  refine ⟨by decide, by decide, ?_⟩
  decide

/-! ### `ensureVendor` lemmas -/

theorem ensureVendor_post {cfg vd : List (String × PyVal)}
    (hvd : dGet cfg "vendors" = some (.dict vd)) (v : String) :
    ∃ vobj2, ensureVendor cfg v = dSet cfg "vendors" (.dict (dSet vd v (.dict vobj2)))
      ∧ (∃ ss : List String, dGet vobj2 "issues" = some (.list (ss.map PyVal.str))
          ∧ cleanIssues ss)
      ∧ (∃ d, dGet vobj2 "delimiter" = some (.str d)) := by
  unfold ensureVendor
  rw [dGetD_eq hvd]
  simp only [asDict]
  generalize (match dGet vd v with
    | some (PyVal.dict kvs) => kvs
    | _ => ([] : List (String × PyVal))) = vobj
  have hmain : ∀ (vobj1 : List (String × PyVal)),
      (∃ ss : List String, dGet vobj1 "issues" = some (.list (ss.map PyVal.str))
        ∧ cleanIssues ss) →
      ∃ vobj2,
        dSet cfg "vendors"
          (.dict (dSet vd v (.dict (dSet vobj1 "delimiter"
            (.str (match dGetD vobj1 "delimiter" (.str DEFAULT_DELIMITER) with
              | .none => DEFAULT_DELIMITER
              | x => pyStr x))))))
        = dSet cfg "vendors" (.dict (dSet vd v (.dict vobj2)))
        ∧ (∃ ss : List String, dGet vobj2 "issues" = some (.list (ss.map PyVal.str))
            ∧ cleanIssues ss)
        ∧ (∃ d, dGet vobj2 "delimiter" = some (.str d)) := by
    intro vobj1 hiss
    refine ⟨dSet vobj1 "delimiter" (.str _), rfl, ?_, ?_⟩
    · obtain ⟨ss, hss, hcl⟩ := hiss
      refine ⟨ss, ?_, hcl⟩
      rw [dGet_dSet_ne]
      · exact hss
      · decide
    · exact ⟨_, dGet_dSet_self _ _ _⟩
  split
  · next xs heq =>
    split
    · exact hmain _ ⟨default_issues, by rw [dGet_dSet_self], default_issues_clean⟩
    · by_cases hce : (cleanDedup xs).isEmpty
      · refine hmain _ ⟨default_issues, ?_, default_issues_clean⟩
        rw [dGet_dSet_self, hce]
        rfl
      · refine hmain _ ⟨cleanDedup xs, ?_,
          ?_, (cleanDedup_clean xs).1, (cleanDedup_clean xs).2⟩
        · rw [dGet_dSet_self]
          rw [show (if (cleanDedup xs).isEmpty = true then default_issues
            else cleanDedup xs) = cleanDedup xs from by simp [hce]]
        · intro hq
          rw [hq] at hce
          exact hce rfl
  · exact hmain _ ⟨default_issues, by rw [dGet_dSet_self], default_issues_clean⟩

theorem ensureVendor_stable {cfg vd vobj : List (String × PyVal)} {v : String}
    (hvd : dGet cfg "vendors" = some (.dict vd))
    (hv : dGet vd v = some (.dict vobj))
    (hiss : ∃ ss : List String, dGet vobj "issues" = some (.list (ss.map PyVal.str))
        ∧ cleanIssues ss)
    (hdel : ∃ d, dGet vobj "delimiter" = some (.str d)) :
    ensureVendor cfg v = cfg := by
  obtain ⟨ss, hss, hne, hnd, hcl⟩ := hiss
  obtain ⟨d, hd⟩ := hdel
  unfold ensureVendor
  rw [dGetD_eq hvd]
  simp only [asDict]
  rw [hv]
  simp only []
  rw [dGetD_eq hss]
  simp only []
  have hmape : (ss.map PyVal.str).isEmpty = false := by
    cases ss
    · exact absurd rfl hne
    · rfl
  rw [if_neg (by simp [hmape])]
  rw [cleanDedup_stable ss hnd hcl]
  have hsse : ss.isEmpty = false := by
    cases ss
    · exact absurd rfl hne
    · rfl
  rw [show (if ss.isEmpty then default_issues else ss) = ss from by simp [hsse]]
  rw [dSet_same hss]
  rw [dGetD_eq hd]
  simp only [pyStr_str]
  rw [dSet_same hd, dSet_same hv, dSet_same hvd]

theorem ensure_fold_post :
    ∀ (vs : List String) (cfg vd : List (String × PyVal)),
      dGet cfg "vendors" = some (.dict vd) →
      ∃ vd2, dGet (vs.foldl ensureVendor cfg) "vendors" = some (.dict vd2)
        ∧ (∀ w, w ∉ vs → dGet vd2 w = dGet vd w)
        ∧ (∀ v ∈ vs, ∃ vobj, dGet vd2 v = some (.dict vobj)
            ∧ (∃ ss : List String, dGet vobj "issues" = some (.list (ss.map PyVal.str))
                ∧ cleanIssues ss)
            ∧ (∃ d, dGet vobj "delimiter" = some (.str d))) := by
  intro vs
  induction vs with
  | nil =>
    intro cfg vd h
    exact ⟨vd, h, fun w _ => rfl, by simp⟩
  | cons v rest ih =>
    intro cfg vd h
    obtain ⟨vobj2, heq, hiss, hdel⟩ := ensureVendor_post h v
    have h1 : dGet (ensureVendor cfg v) "vendors"
        = some (.dict (dSet vd v (.dict vobj2))) := by
      rw [heq, dGet_dSet_self]
    obtain ⟨vd2, h2, hpre, hmem⟩ := ih (ensureVendor cfg v) (dSet vd v (.dict vobj2)) h1
    refine ⟨vd2, by rw [List.foldl_cons]; exact h2, ?_, ?_⟩
    · intro w hw
      simp only [List.mem_cons] at hw
      push_neg at hw
      rw [hpre w hw.2]
      rw [dGet_dSet_ne]
      exact fun hq => hw.1 hq.symm
    · intro u hu
      simp only [List.mem_cons] at hu
      by_cases hur : u ∈ rest
      · exact hmem u hur
      · have hq : u = v := by tauto
        subst hq
        refine ⟨vobj2, ?_, hiss, hdel⟩
        rw [hpre u hur, dGet_dSet_self]

theorem ensure_post_aux (c : List (String × PyVal)) (vendors : List String) :
    cfgEnsured (.dict (vendors.foldl ensureVendor
      (if isDict (dGetD (dSetdefault c "vendors" (.dict [])) "vendors" .none)
       then dSetdefault c "vendors" (.dict [])
       else dSet (dSetdefault c "vendors" (.dict [])) "vendors" (.dict [])))) vendors := by
  have hpre : ∃ vd0,
      dGet (if isDict (dGetD (dSetdefault c "vendors" (.dict [])) "vendors" .none)
        then dSetdefault c "vendors" (.dict [])
        else dSet (dSetdefault c "vendors" (.dict [])) "vendors" (.dict []))
        "vendors" = some (.dict vd0) := by
    by_cases hm : dMem c "vendors" = true
    · rw [dSetdefault, if_pos hm]
      obtain ⟨x, hx⟩ : ∃ x, dGet c "vendors" = some x := by
        rw [dMem, Option.isSome_iff_exists] at hm
        exact hm
      rcases x with _ | _ | _ | _ | _ | kvs2
      rotate_right
      · rw [if_pos (by rw [dGetD_eq hx]; rfl)]
        exact ⟨kvs2, hx⟩
      all_goals
        rw [if_neg (by rw [dGetD_eq hx]; simp [isDict])]
        exact ⟨[], dGet_dSet_self _ _ _⟩
    · rw [dSetdefault, if_neg hm]
      have hx : dGet (c ++ [("vendors", PyVal.dict [])]) "vendors"
          = some (.dict []) := by
        rw [dGet_append]
        rw [show dGet c "vendors" = Option.none from by
          rw [dMem] at hm
          exact Option.not_isSome_iff_eq_none.mp hm]
        simp [dGet]
      rw [if_pos (by rw [dGetD_eq hx]; rfl)]
      exact ⟨[], hx⟩
  obtain ⟨vd0, hvd0⟩ := hpre
  obtain ⟨vd2, h2, _, hmem⟩ := ensure_fold_post vendors _ vd0 hvd0
  exact ⟨_, vd2, rfl, h2, hmem⟩

/-- Every vendor processed by `ensure_issue_config_vendor_scoped` ends with a
dict entry holding a clean nonempty string issues list and a string delimiter. -/
theorem ensure_post (cfg0 : PyVal) (vendors : List String) :
    cfgEnsured (ensure_issue_config_vendor_scoped cfg0 vendors) vendors := by
  unfold ensure_issue_config_vendor_scoped
  exact ensure_post_aux _ vendors

/-- `ensure_issue_config_vendor_scoped` is the identity on its own output
shape. -/
theorem ensure_stable {cfg : PyVal} {vendors : List String}
    (h : cfgEnsured cfg vendors) :
    ensure_issue_config_vendor_scoped cfg vendors = cfg := by
  obtain ⟨kvs, vd, rfl, hvd, hv⟩ := h
  have hmem : dMem kvs "vendors" = true := dMem_of_dGet hvd
  have hfold : ∀ (vs : List String), (∀ v ∈ vs, v ∈ vendors) →
      vs.foldl ensureVendor kvs = kvs := by
    intro vs
    induction vs with
    | nil => intro _; rfl
    | cons v rest ih =>
      intro hsub
      rw [List.foldl_cons]
      obtain ⟨vobj, hvo, hiss, hdel⟩ := hv v (hsub v (by simp))
      rw [ensureVendor_stable hvd hvo hiss hdel]
      exact ih (fun u hu => hsub u (by simp [hu]))
  unfold ensure_issue_config_vendor_scoped
  simp only [asDict, hmem, Bool.not_true, Bool.and_false, Bool.false_eq_true,
    if_false]
  rw [dSetdefault, if_pos hmem]
  rw [if_pos (by rw [dGetD_eq hvd]; rfl)]
  rw [hfold vendors (fun u hu => hu)]

/-! ### Further ordered-dict lemmas for the sync pass -/

theorem dSet_dSet (kvs : List (String × PyVal)) (k : String) (v1 v2 : PyVal) :
    dSet (dSet kvs k v1) k v2 = dSet kvs k v2 := by
  induction kvs with
  | nil => simp [dSet]
  | cons p rest ih =>
    obtain ⟨k2, v⟩ := p
    by_cases h : k2 = k
    · simp [dSet, h]
    · simp [dSet, h, ih]

theorem dMem_keys :
    ∀ (kvs : List (String × PyVal)) (k : String),
      dMem kvs k = true ↔ k ∈ kvs.map Prod.fst := by
  intro kvs k
  induction kvs with
  | nil => simp [dMem, dGet]
  | cons p rest ih =>
    obtain ⟨k2, v⟩ := p
    by_cases h : k2 = k
    · subst h
      simp [dMem, dGet]
    · simp only [dMem, dGet, if_neg h, List.map_cons, List.mem_cons]
      rw [← dMem, ih]
      constructor
      · exact Or.inr
      · rintro (rfl | hm)
        · exact absurd rfl h
        · exact hm

theorem str_mem_map {a : String} {ss : List String} :
    PyVal.str a ∈ ss.map PyVal.str ↔ a ∈ ss := by
  simp [List.mem_map]

theorem exists_strs :
    ∀ (L : List PyVal), (∀ x ∈ L, ∃ s, x = PyVal.str s) →
      ∃ ss : List String, L = ss.map PyVal.str := by
  intro L
  induction L with
  | nil => exact fun _ => ⟨[], rfl⟩
  | cons x rest ih =>
    intro h
    obtain ⟨s, rfl⟩ := h x (by simp)
    obtain ⟨ss, rfl⟩ := ih (fun y hy => h y (by simp [hy]))
    exact ⟨s :: ss, rfl⟩

/-! ### `appendDbIssues` (the db-key append loop) lemmas -/

theorem appendDbIssues_spec :
    ∀ (ks : List String) (seen acc : List PyVal) (app : Bool),
      (∀ x, x ∈ seen ↔ x ∈ acc) →
      (∀ x, x ∈ (appendDbIssues ks seen acc app).1
          ↔ x ∈ (appendDbIssues ks seen acc app).2.1)
      ∧ (∀ x ∈ acc, x ∈ (appendDbIssues ks seen acc app).2.1)
      ∧ (∀ k ∈ ks, pyStrip k ≠ "" →
          PyVal.str (pyStrip k) ∈ (appendDbIssues ks seen acc app).2.1)
      ∧ (∀ x ∈ (appendDbIssues ks seen acc app).2.1,
          x ∈ acc ∨ ∃ s, x = PyVal.str s ∧ pyStrip s = s ∧ s ≠ "")
      ∧ (acc.Nodup → (appendDbIssues ks seen acc app).2.1.Nodup) := by
  intro ks
  induction ks with
  | nil =>
    intro seen acc app hsa
    simp only [appendDbIssues]
    exact ⟨hsa, fun x hx => hx, by simp, fun x hx => Or.inl hx, fun h => h⟩
  | cons k rest ih =>
    intro seen acc app hsa
    simp only [appendDbIssues]
    by_cases hc : pyStrip k = "" ∨ PyVal.str (pyStrip k) ∈ seen
    · rw [if_pos hc]
      obtain ⟨h1, h2, h3, h4, h5⟩ := ih seen acc app hsa
      refine ⟨h1, h2, ?_, h4, h5⟩
      intro k2 hk2 hs
      rcases List.mem_cons.mp hk2 with rfl | hk2
      · rcases hc with hc | hc
        · exact absurd hc hs
        · exact h2 _ ((hsa _).mp hc)
      · exact h3 k2 hk2 hs
    · rw [if_neg hc]
      push_neg at hc
      obtain ⟨hne, hnotin⟩ := hc
      have hsa2 : ∀ x, x ∈ (PyVal.str (pyStrip k) :: seen)
          ↔ x ∈ acc ++ [PyVal.str (pyStrip k)] := by
        intro x
        simp [hsa x, or_comm]
      obtain ⟨h1, h2, h3, h4, h5⟩ := ih _ _ true hsa2
      refine ⟨h1, ?_, ?_, ?_, ?_⟩
      · intro x hx
        exact h2 x (by simp [hx])
      · intro k2 hk2 hs
        rcases List.mem_cons.mp hk2 with rfl | hk2
        · exact h2 _ (by simp)
        · exact h3 k2 hk2 hs
      · intro x hx
        rcases h4 x hx with hx2 | hx2
        · rcases List.mem_append.mp hx2 with hx3 | hx3
          · exact Or.inl hx3
          · right
            simp only [List.mem_singleton] at hx3
            exact ⟨pyStrip k, hx3, pyStrip_idem _, hne⟩
        · exact Or.inr hx2
      · intro hnd
        refine h5 ?_
        rw [List.nodup_append]
        refine ⟨hnd, by simp, ?_⟩
        intro a ha
        simp only [List.mem_singleton]
        exact fun hq => hnotin (hq ▸ (hsa a).mpr ha)

theorem appendDbIssues_stable :
    ∀ (ks : List String) (seen acc : List PyVal) (app : Bool),
      (∀ k ∈ ks, pyStrip k = "" ∨ PyVal.str (pyStrip k) ∈ seen) →
      appendDbIssues ks seen acc app = (seen, acc, app) := by
  intro ks
  induction ks with
  | nil => intro seen acc app _; rfl
  | cons k rest ih =>
    intro seen acc app h
    simp only [appendDbIssues]
    rw [if_pos (h k (by simp))]
    exact ih _ _ _ (fun u hu => h u (by simp [hu]))

theorem appendDbIssues_flag_true :
    ∀ (ks : List String) (seen acc : List PyVal),
      (appendDbIssues ks seen acc true).2.2 = true := by
  intro ks
  induction ks with
  | nil => intro seen acc; rfl
  | cons k rest ih =>
    intro seen acc
    simp only [appendDbIssues]
    by_cases hc : pyStrip k = "" ∨ PyVal.str (pyStrip k) ∈ seen
    · rw [if_pos hc]
      exact ih _ _
    · rw [if_neg hc]
      exact ih _ _

theorem appendDbIssues_false :
    ∀ (ks : List String) (seen acc : List PyVal),
      (appendDbIssues ks seen acc false).2.2 = false →
      appendDbIssues ks seen acc false = (seen, acc, false) := by
  intro ks
  induction ks with
  | nil => intro seen acc _; rfl
  | cons k rest ih =>
    intro seen acc h
    simp only [appendDbIssues] at h ⊢
    by_cases hc : pyStrip k = "" ∨ PyVal.str (pyStrip k) ∈ seen
    · rw [if_pos hc] at h ⊢
      exact ih _ _ h
    · rw [if_neg hc] at h
      rw [appendDbIssues_flag_true] at h
      exact absurd h (by simp)

theorem appendDbIssues_append :
    ∀ (ks ks2 : List String) (seen acc : List PyVal) (app : Bool),
      appendDbIssues (ks ++ ks2) seen acc app
        = appendDbIssues ks2 (appendDbIssues ks seen acc app).1
            (appendDbIssues ks seen acc app).2.1 (appendDbIssues ks seen acc app).2.2 := by
  intro ks
  induction ks with
  | nil => intro ks2 seen acc app; rfl
  | cons k rest ih =>
    intro ks2 seen acc app
    simp only [List.cons_append, appendDbIssues]
    by_cases hc : pyStrip k = "" ∨ PyVal.str (pyStrip k) ∈ seen
    · rw [if_pos hc, if_pos hc]
      exact ih _ _ _ _
    · rw [if_neg hc, if_neg hc]
      exact ih _ _ _ _

/-! ### `createIssues` (the default-object creation loop) lemmas -/

theorem createIssues_strs :
    ∀ (ss : List String) (dbv : List (String × PyVal)) (c : Bool),
      (∀ u x, dGet dbv u = some x →
          dGet (createIssues (ss.map PyVal.str) dbv c).1 u = some x)
      ∧ (∀ u ∈ ss, dMem (createIssues (ss.map PyVal.str) dbv c).1 u = true)
      ∧ (∀ u cat, dGet (createIssues (ss.map PyVal.str) dbv c).1 u = some cat →
          dGet dbv u = some cat ∨ cat = _default_issue_obj)
      ∧ (∃ Δ, (createIssues (ss.map PyVal.str) dbv c).1 = dbv ++ Δ
          ∧ ∀ e ∈ Δ, e.1 ∈ ss ∧ e.2 = _default_issue_obj) := by
  intro ss
  induction ss with
  | nil =>
    intro dbv c
    exact ⟨fun _ _ h => h, by simp, fun _ _ h => Or.inl h,
      ⟨[], by simp [createIssues], by simp⟩⟩
  | cons s rest ih =>
    intro dbv c
    simp only [List.map_cons, createIssues]
    by_cases hm : dMem dbv s = true
    · rw [if_pos hm]
      obtain ⟨h1, h2, h3, h4⟩ := ih dbv c
      refine ⟨h1, ?_, h3, ?_⟩
      · intro u hu
        rcases List.mem_cons.mp hu with rfl | hu2
        · obtain ⟨x, hx⟩ := Option.isSome_iff_exists.mp (by rw [dMem] at hm; exact hm)
          exact dMem_of_dGet (h1 u x hx)
        · exact h2 u hu2
      · obtain ⟨Δ, hΔ, hΔ2⟩ := h4
        exact ⟨Δ, hΔ, fun e he => ⟨List.mem_cons_of_mem _ (hΔ2 e he).1, (hΔ2 e he).2⟩⟩
    · rw [if_neg hm]
      have hnone : dGet dbv s = Option.none := by
        rw [dMem] at hm
        exact Option.not_isSome_iff_eq_none.mp (by simpa using hm)
      have hget : ∀ u x, dGet dbv u = some x →
          dGet (dbv ++ [(s, _default_issue_obj)]) u = some x := by
        intro u x hx
        rw [dGet_append, hx]
      have hgets : dGet (dbv ++ [(s, _default_issue_obj)]) s
          = some _default_issue_obj := by
        rw [dGet_append, hnone]
        simp [dGet]
      obtain ⟨h1, h2, h3, h4⟩ := ih (dbv ++ [(s, _default_issue_obj)]) true
      refine ⟨fun u x hx => h1 u x (hget u x hx), ?_, ?_, ?_⟩
      · intro u hu
        rcases List.mem_cons.mp hu with rfl | hu2
        · exact dMem_of_dGet (h1 u _ hgets)
        · exact h2 u hu2
      · intro u cat hcat
        rcases h3 u cat hcat with hl | hr
        · rw [dGet_append] at hl
          cases hgd : dGet dbv u with
          | some y =>
            rw [hgd] at hl
            have hl2 : some y = some cat := hl
            exact Or.inl hl2
          | none =>
            rw [hgd] at hl
            by_cases hsu : s = u
            · right
              have h9 : some _default_issue_obj = some cat := by
                rw [← hl]
                simp [dGet, hsu]
              exact (Option.some.inj h9).symm
            · exfalso
              simp [dGet, hsu] at hl
        · exact Or.inr hr
      · obtain ⟨Δ, hΔ, hΔ2⟩ := h4
        refine ⟨(s, _default_issue_obj) :: Δ, by rw [hΔ, ← List.append_cons], ?_⟩
        intro e he
        rcases List.mem_cons.mp he with rfl | he2
        · exact ⟨by simp, rfl⟩
        · exact ⟨List.mem_cons_of_mem _ (hΔ2 e he2).1, (hΔ2 e he2).2⟩

theorem storedIssues_vendors {K V : List (String × PyVal)} (w : String)
    (hK : dGet K "vendors" = some (.dict V)) :
    storedIssues (.dict K) w
      = (match dGet V w with
         | some (.dict o) =>
           (match dGet o "issues" with
            | some (.list xs) => xs
            | _ => [])
         | _ => []) := by
  unfold storedIssues
  rw [show asDict (PyVal.dict K) = K from rfl, dGetD_eq hK]
  rfl

theorem storedIssues_eq {kvs vd vobj : List (String × PyVal)} {v : String}
    {xs : List PyVal}
    (hvd : dGet kvs "vendors" = some (.dict vd))
    (hvobj : dGet vd v = some (.dict vobj))
    (hiss : dGet vobj "issues" = some (.list xs)) :
    storedIssues (.dict kvs) v = xs := by
  rw [storedIssues_vendors v hvd]
  simp only [hvobj, hiss]

theorem get_vendor_issues_blank (cfg : PyVal) :
    _get_vendor_issues cfg "" = [] := by
  rw [_get_vendor_issues, _get_vendor_cfg, if_pos rfl]
  rfl

theorem get_vendor_issues_eq {kvs vd vobj : List (String × PyVal)} {v : String}
    {xs : List PyVal} (hv : v ≠ "")
    (hvd : dGet kvs "vendors" = some (.dict vd))
    (hvobj : dGet vd v = some (.dict vobj))
    (hiss : dGet vobj "issues" = some (.list xs)) :
    _get_vendor_issues (.dict kvs) v = xs := by
  have hcfg : _get_vendor_cfg (.dict kvs) v = vobj := by
    rw [_get_vendor_cfg, if_neg hv, show asDict (PyVal.dict kvs) = kvs from rfl,
      dGetD_eq hvd, show asDict (PyVal.dict vd) = vd from rfl, dGetD_eq hvobj]
    rfl
  rw [_get_vendor_issues, hcfg, dGetD_eq hiss]

theorem set_vendor_issues_spec {kvs vd vobj : List (String × PyVal)} {v : String}
    (hvd : dGet kvs "vendors" = some (.dict vd))
    (hvobj : dGet vd v = some (.dict vobj))
    (xs : List PyVal) :
    _set_vendor_issues (.dict kvs) v xs
      = .dict (dSet kvs "vendors"
          (.dict (dSet vd v (.dict (dSet vobj "issues" (.list xs)))))) := by
  unfold _set_vendor_issues
  simp only [asDict]
  rw [keys_dSetdefault_of_mem (dMem_of_dGet hvd)]
  rw [dGetD_eq hvd]
  simp only [asDict]
  rw [keys_dSetdefault_of_mem (dMem_of_dGet hvobj)]
  rw [dGetD_eq hvobj]

theorem createIssues_stable :
    ∀ (ss : List String) (dbv : List (String × PyVal)) (c : Bool),
      (∀ u ∈ ss, dMem dbv u = true) →
      createIssues (ss.map PyVal.str) dbv c = (dbv, c) := by
  intro ss
  induction ss with
  | nil => intro dbv c _; rfl
  | cons s rest ih =>
    intro dbv c h
    simp only [List.map_cons, createIssues]
    rw [if_pos (h s (by simp))]
    exact ih dbv c (fun u hu => h u (by simp [hu]))

/-- Closed form of one sync-loop iteration: the vendor's db subtree is
coerced to a dict and extended by the creation loop, and the vendor's
configured issues list is rewritten to the appended list `L2` (when nothing
is appended and the list was nonempty this collapses to the unchanged
config). -/
theorem syncVendorStep_normal (st : SyncResult) (v : String) (x : PyVal)
    (hx : dGet st.db v = some x)
    (kvs vd vobj : List (String × PyVal)) (ss0 : List String)
    (hkvs : st.cfg = .dict kvs)
    (hvd : dGet kvs "vendors" = some (.dict vd))
    (hvobj : dGet vd v = some (.dict vobj))
    (hiss : dGet vobj "issues" = some (.list (ss0.map PyVal.str)))
    (hne : ss0 ≠ [])
    (L1 L2 : List PyVal)
    (hL1 : L1 = if v = "" then default_issues.map PyVal.str else ss0.map PyVal.str)
    (hL2 : L2 = (appendDbIssues ((asDict x).map Prod.fst) L1 L1 false).2.1) :
    (syncVendorStep st v).db
      = dSet st.db v (.dict (createIssues L2 (asDict x) st.changed_db).1)
    ∧ (syncVendorStep st v).cfg
      = .dict (dSet kvs "vendors"
          (.dict (dSet vd v (.dict (dSet vobj "issues" (.list L2)))))) := by
  have hmem : dMem st.db v = true := dMem_of_dGet hx
  have hsd : dSetdefault st.db v (.dict []) = st.db :=
    keys_dSetdefault_of_mem hmem _
  have hdbv : dGetD st.db v .none = x := dGetD_eq hx _
  by_cases hv : v = ""
  · subst hv
    have hL0 : _get_vendor_issues st.cfg "" = [] := get_vendor_issues_blank _
    have hL1e : L1 = default_issues.map PyVal.str := by
      rw [hL1]
      rfl
    simp only [syncVendorStep]
    rw [hsd, hdbv, hL0]
    simp only [List.isEmpty_nil, if_true]
    rw [← hL1e, ← hL2, hkvs, set_vendor_issues_spec hvd hvobj]
    by_cases hap : (appendDbIssues ((asDict x).map Prod.fst) L1 L1 false).2.2 = true
    · rw [if_pos hap]
      rw [set_vendor_issues_spec (dGet_dSet_self _ _ _) (dGet_dSet_self _ _ _)]
      rw [dSet_dSet, dSet_dSet, dSet_dSet, dSet_dSet]
      exact ⟨rfl, rfl⟩
    · rw [if_neg hap]
      have hfl : (appendDbIssues ((asDict x).map Prod.fst) L1 L1 false).2.2 = false :=
        Bool.eq_false_iff.mpr hap
      have hL2e : L2 = L1 := by
        rw [hL2, appendDbIssues_false _ _ _ hfl]
      rw [hL2e, dSet_dSet]
      exact ⟨rfl, rfl⟩
  · have hstored : storedIssues st.cfg v = ss0.map PyVal.str := by
      rw [hkvs]
      exact storedIssues_eq hvd hvobj hiss
    have hL0 : _get_vendor_issues st.cfg v = ss0.map PyVal.str := by
      rw [hkvs]
      exact get_vendor_issues_eq hv hvd hvobj hiss
    have hL1e : L1 = ss0.map PyVal.str := by
      rw [hL1, if_neg hv]
    have hempty : (ss0.map PyVal.str).isEmpty = false := by
      cases ss0 with
      | nil => exact absurd rfl hne
      | cons a l => rfl
    simp only [syncVendorStep]
    rw [hsd, hdbv, hL0, hempty]
    simp only [Bool.false_eq_true, if_false]
    rw [← hL1e, ← hL2]
    by_cases hap : (appendDbIssues ((asDict x).map Prod.fst) L1 L1 false).2.2 = true
    · rw [if_pos hap]
      rw [dSet_dSet, hkvs, set_vendor_issues_spec hvd hvobj]
      exact ⟨rfl, rfl⟩
    · rw [if_neg hap]
      have hfl : (appendDbIssues ((asDict x).map Prod.fst) L1 L1 false).2.2 = false :=
        Bool.eq_false_iff.mpr hap
      have hL2e : L2 = L1 := by
        rw [hL2, appendDbIssues_false _ _ _ hfl]
      rw [hL2e, hL1e, dSet_same hiss, dSet_same hvobj, dSet_same hvd, ← hkvs]
      rw [dSet_dSet]
      exact ⟨rfl, rfl⟩

/-- Full postcondition of one sync-loop iteration: vendor keys of the db are
unchanged, all other vendors are untouched, the per-vendor config shape is
kept, and the processed vendor ends with a clean stored list covering its
db keys, every listed name mapping to the default issue object or its
original db value. -/
theorem syncVendorStep_spec (st : SyncResult) (vendorsAll : List String)
    (v : String) (hens : cfgEnsured st.cfg vendorsAll) (hvin : v ∈ vendorsAll)
    (x : PyVal) (hx : dGet st.db v = some x) :
    ((syncVendorStep st v).db.map Prod.fst = st.db.map Prod.fst)
    ∧ (∀ w, v ≠ w → dGet (syncVendorStep st v).db w = dGet st.db w)
    ∧ (∀ w, v ≠ w →
        storedIssues (syncVendorStep st v).cfg w = storedIssues st.cfg w)
    ∧ cfgEnsured (syncVendorStep st v).cfg vendorsAll
    ∧ ∃ dbv2 ss2,
        dGet (syncVendorStep st v).db v = some (.dict dbv2)
        ∧ storedIssues (syncVendorStep st v).cfg v = ss2.map PyVal.str
        ∧ cleanIssues ss2
        ∧ (∀ k ∈ dbv2.map Prod.fst, pyStrip k ≠ "" → pyStrip k ∈ ss2)
        ∧ (∀ s ∈ ss2, ∃ cat, dGet dbv2 s = some cat
            ∧ (cat = _default_issue_obj ∨ dGet (asDict x) s = some cat))
        ∧ (v = "" → (appendDbIssues (dbv2.map Prod.fst)
            (default_issues.map PyVal.str) (default_issues.map PyVal.str)
            false).2.1 = ss2.map PyVal.str) := by
  obtain ⟨kvs, vd, hkvs, hvd, hall⟩ := hens
  obtain ⟨vobj, hvobj, ⟨ss0, hiss, hss0⟩, d, hdel⟩ := hall v hvin
  set L1 := (if v = "" then default_issues.map PyVal.str else ss0.map PyVal.str)
    with hL1
  set L2 := (appendDbIssues ((asDict x).map Prod.fst) L1 L1 false).2.1 with hL2
  obtain ⟨hdb', hcfg'⟩ := syncVendorStep_normal st v x hx kvs vd vobj ss0
    hkvs hvd hvobj hiss hss0.1 L1 L2 hL1 hL2
  have happ := appendDbIssues_spec ((asDict x).map Prod.fst) L1 L1 false
    (fun y => Iff.rfl)
  rw [← hL2] at happ
  obtain ⟨hiffA, hgrowA, hcovA, hprovA, hndA⟩ := happ
  have hL1s : ∃ ss1, L1 = ss1.map PyVal.str ∧ cleanIssues ss1 := by
    rw [hL1]
    by_cases hv : v = ""
    · rw [if_pos hv]
      exact ⟨default_issues, rfl, default_issues_clean⟩
    · rw [if_neg hv]
      exact ⟨ss0, rfl, hss0⟩
  obtain ⟨ss1, hss1e, hss1c⟩ := hL1s
  have hstrs : ∀ y ∈ L2, ∃ s, y = PyVal.str s ∧ pyStrip s = s ∧ s ≠ "" := by
    intro y hy
    rcases hprovA y hy with h | h
    · rw [hss1e] at h
      obtain ⟨s, hs, rfl⟩ := List.mem_map.mp h
      exact ⟨s, rfl, hss1c.2.2 s hs⟩
    · exact h
  obtain ⟨ss2, hss2⟩ := exists_strs L2 (fun y hy => (hstrs y hy).imp (fun s hs => hs.1))
  have hss2mem : ∀ s, s ∈ ss2 ↔ PyVal.str s ∈ L2 := by
    intro s
    rw [hss2, str_mem_map]
  have hss2c : cleanIssues ss2 := by
    refine ⟨?_, ?_, ?_⟩
    · obtain ⟨a, ha⟩ := List.exists_mem_of_ne_nil ss1 hss1c.1
      intro hemp
      have hmm : PyVal.str a ∈ L2 :=
        hgrowA _ (by rw [hss1e]; exact List.mem_map_of_mem _ ha)
      rw [hss2, hemp] at hmm
      simp at hmm
    · have hnd2 : L2.Nodup := hndA (by
        rw [hss1e]
        exact List.Nodup.map (fun a b hab => PyVal.str.inj hab) hss1c.2.1)
      rw [hss2] at hnd2
      exact hnd2.of_map
    · intro s hs
      obtain ⟨s2, he, hcl⟩ := hstrs _ ((hss2mem s).mp hs)
      obtain rfl := PyVal.str.inj he
      exact hcl
  rw [hss2] at hdb'
  obtain ⟨hCImono, hCImem, hCIprov, Δ, hΔ, hΔ2⟩ :=
    createIssues_strs ss2 (asDict x) st.changed_db
  refine ⟨?_, ?_, ?_, ?_, ?_⟩
  · rw [hdb']
    exact keys_dSet_of_mem (dMem_of_dGet hx) _
  · intro w hw
    rw [hdb']
    exact dGet_dSet_ne _ _ hw
  · intro w hw
    rw [hcfg', hkvs]
    rw [storedIssues_vendors w (dGet_dSet_self _ _ _), storedIssues_vendors w hvd]
    rw [dGet_dSet_ne _ _ hw]
  · refine ⟨_, _, hcfg', dGet_dSet_self _ _ _, ?_⟩
    intro u hu
    by_cases huv : u = v
    · subst huv
      refine ⟨dSet vobj "issues" (.list L2), dGet_dSet_self _ _ _,
        ⟨ss2, ?_, hss2c⟩, d, ?_⟩
      · rw [← hss2]
        exact dGet_dSet_self _ _ _
      · rw [dGet_dSet_ne _ _ (by decide)]
        exact hdel
    · obtain ⟨vo, hvo, hqi, hqd⟩ := hall u hu
      refine ⟨vo, ?_, hqi, hqd⟩
      rw [dGet_dSet_ne _ _ (fun he => huv he.symm)]
      exact hvo
  · refine ⟨(createIssues (ss2.map PyVal.str) (asDict x) st.changed_db).1, ss2,
      ?_, ?_, hss2c, ?_, ?_, ?_⟩
    · rw [hdb']
      exact dGet_dSet_self _ _ _
    · rw [hcfg']
      have hkey : dGet (dSet vobj "issues" (.list L2)) "issues"
          = some (.list (ss2.map PyVal.str)) := by
        rw [← hss2]
        exact dGet_dSet_self _ _ _
      exact storedIssues_eq (dGet_dSet_self _ _ _) (dGet_dSet_self _ _ _) hkey
    · intro k hk hkne
      rw [hΔ, List.map_append] at hk
      rcases List.mem_append.mp hk with hk | hk
      · exact (hss2mem _).mpr (hcovA k hk hkne)
      · obtain ⟨e, he, rfl⟩ := List.mem_map.mp hk
        have h1 := (hΔ2 e he).1
        have hcl := hss2c.2.2 e.1 h1
        rw [hcl.1]
        exact h1
    · intro s hs
      have hm : dMem (createIssues (ss2.map PyVal.str) (asDict x) st.changed_db).1 s
          = true := hCImem s hs
      obtain ⟨cat, hcat⟩ := Option.isSome_iff_exists.mp (by rw [dMem] at hm; exact hm)
      refine ⟨cat, hcat, ?_⟩
      rcases hCIprov s cat hcat with h | h
      · exact Or.inr h
      · exact Or.inl h
    · intro hveq
      subst hveq
      have hL1d : L1 = default_issues.map PyVal.str := by
        rw [hL1]
        rfl
      rw [hΔ, List.map_append, ← hL1d]
      rw [appendDbIssues_append]
      have hstab : ∀ k ∈ Δ.map Prod.fst, pyStrip k = "" ∨ PyVal.str (pyStrip k)
          ∈ (appendDbIssues ((asDict x).map Prod.fst) L1 L1 false).1 := by
        intro k hkΔ
        obtain ⟨e, he, rfl⟩ := List.mem_map.mp hkΔ
        have h1 := (hΔ2 e he).1
        have hcl := hss2c.2.2 e.1 h1
        rw [hcl.1]
        exact Or.inr ((hiffA _).mpr ((hss2mem _).mp h1))
      rw [appendDbIssues_stable _ _ _ _ hstab]
      exact hss2

/-- The per-vendor state reached by the sync loop: the vendor has a dict db
subtree, a clean stored issues list covering the stripped nonblank db keys,
every listed name maps to the default issue object or to its original value
from the input db, and (for the falsy vendor name) the list is exactly what
re-appending the db keys to the default list rebuilds. -/
def vendorSynced (db0 : PyVal) (db : List (String × PyVal)) (cfg : PyVal)
    (v : String) : Prop :=
  ∃ dbv ss,
    dGet db v = some (.dict dbv)
    ∧ storedIssues cfg v = ss.map PyVal.str
    ∧ cleanIssues ss
    ∧ (∀ k ∈ dbv.map Prod.fst, pyStrip k ≠ "" → pyStrip k ∈ ss)
    ∧ (∀ s ∈ ss, ∃ cat, dGet dbv s = some cat
        ∧ (cat = _default_issue_obj
           ∨ dGet (asDict (dGetD (coerceDb db0) v PyVal.none)) s = some cat))
    ∧ (v = "" → (appendDbIssues (dbv.map Prod.fst)
        (default_issues.map PyVal.str) (default_issues.map PyVal.str)
        false).2.1 = ss.map PyVal.str)

theorem syncFold_inv (db0 : PyVal) (vendorsAll : List String)
    (hnd : vendorsAll.Nodup)
    (hvk : vendorsAll = (coerceDb db0).map Prod.fst) :
    ∀ (pending done : List String) (st : SyncResult),
      vendorsAll = done ++ pending →
      cfgEnsured st.cfg vendorsAll →
      st.db.map Prod.fst = (coerceDb db0).map Prod.fst →
      (∀ w ∈ done, vendorSynced db0 st.db st.cfg w) →
      (∀ w ∈ pending, dGet st.db w = dGet (coerceDb db0) w) →
      cfgEnsured ((pending.foldl syncVendorStep st).cfg) vendorsAll
      ∧ ((pending.foldl syncVendorStep st).db.map Prod.fst
          = (coerceDb db0).map Prod.fst)
      ∧ (∀ w ∈ vendorsAll,
          vendorSynced db0 ((pending.foldl syncVendorStep st).db)
            ((pending.foldl syncVendorStep st).cfg) w) := by
  intro pending
  induction pending with
  | nil =>
    intro done st hsplit hens hkeys hdone _
    refine ⟨hens, hkeys, ?_⟩
    intro w hw
    rw [hsplit, List.append_nil] at hw
    exact hdone w hw
  | cons v rest ih =>
    intro done st hsplit hens hkeys hdone hpend
    have hvin : v ∈ vendorsAll := by
      rw [hsplit]
      simp
    have hndl : (done ++ v :: rest).Nodup := by
      rw [← hsplit]
      exact hnd
    obtain ⟨hnd1, hnd2, hdisj⟩ := List.nodup_append.mp hndl
    have hvdone : ∀ w ∈ done, v ≠ w := by
      intro w hw he
      exact hdisj hw (he ▸ List.mem_cons_self v rest)
    have hvrest : ∀ w ∈ rest, v ≠ w := by
      intro w hw he
      exact (List.nodup_cons.mp hnd2).1 (he ▸ hw)
    have hxv : dGet st.db v = dGet (coerceDb db0) v := hpend v (by simp)
    have hmemv : dMem st.db v = true := by
      rw [dMem, hxv, ← dMem, dMem_keys, ← hvk]
      exact hvin
    obtain ⟨x, hx⟩ : ∃ x, dGet st.db v = some x := by
      rw [dMem] at hmemv
      exact Option.isSome_iff_exists.mp hmemv
    obtain ⟨hk1, hfdb, hfcfg, hens1, dbv2, ss2, hget2, hstored2, hclean2,
      hcov2, hprov2, hblank2⟩ := syncVendorStep_spec st vendorsAll v hens hvin x hx
    rw [List.foldl_cons]
    refine ih (done ++ [v]) (syncVendorStep st v) ?_ hens1 (hk1.trans hkeys) ?_ ?_
    · rw [hsplit]
      simp
    · intro w hw
      rcases List.mem_append.mp hw with hw | hw
      · obtain ⟨dbv, ss, p1, p2, p3, p4, p5, p6⟩ := hdone w hw
        exact ⟨dbv, ss, (hfdb w (hvdone w hw)).symm ▸ p1,
          (hfcfg w (hvdone w hw)).symm ▸ p2, p3, p4, p5, p6⟩
      · simp only [List.mem_singleton] at hw
        subst hw
        refine ⟨dbv2, ss2, hget2, hstored2, hclean2, hcov2, ?_, hblank2⟩
        intro s hs
        obtain ⟨cat, hc1, hc2⟩ := hprov2 s hs
        refine ⟨cat, hc1, ?_⟩
        rcases hc2 with h | h
        · exact Or.inl h
        · right
          rw [show dGetD (coerceDb db0) w PyVal.none = x from by
            rw [dGetD, ← hxv, hx]; rfl]
          exact h
    · intro w hw
      rw [hfdb w (hvrest w hw)]
      exact hpend w (by simp [hw])

/-- Postcondition of `_sync_vendor_scoped_config_with_db`: the config is in
the ensured shape, the db keeps exactly the coerced input vendor keys, and
every vendor is in the synced per-vendor state. -/
theorem sync_post (db0 cfg0 : PyVal)
    (hnd : ((coerceDb db0).map Prod.fst).Nodup) :
    cfgEnsured (_sync_vendor_scoped_config_with_db db0 cfg0).cfg
      ((coerceDb db0).map Prod.fst)
    ∧ ((_sync_vendor_scoped_config_with_db db0 cfg0).db.map Prod.fst
        = (coerceDb db0).map Prod.fst)
    ∧ (∀ w ∈ (coerceDb db0).map Prod.fst,
        vendorSynced db0 (_sync_vendor_scoped_config_with_db db0 cfg0).db
          (_sync_vendor_scoped_config_with_db db0 cfg0).cfg w) := by
  have hdb : _sync_vendor_scoped_config_with_db db0 cfg0
      = ((coerceDb db0).map Prod.fst).foldl syncVendorStep
          { db := coerceDb db0
            cfg := ensure_issue_config_vendor_scoped cfg0
              ((coerceDb db0).map Prod.fst)
            changed_db := false
            changed_cfg := false } := by
    cases db0 <;> rfl
  rw [hdb]
  exact syncFold_inv db0 ((coerceDb db0).map Prod.fst) hnd rfl
    ((coerceDb db0).map Prod.fst) [] _ rfl
    (ensure_post cfg0 ((coerceDb db0).map Prod.fst)) rfl
    (fun w hw => absurd hw (List.not_mem_nil w)) (fun w _ => rfl)

/-- A sync-loop iteration is the identity on the db and config values when
the vendor is already in the synced state. -/
theorem syncVendorStep_stable (db0 : PyVal) (st : SyncResult)
    (vendorsAll : List String) (v : String)
    (hens : cfgEnsured st.cfg vendorsAll) (hvin : v ∈ vendorsAll)
    (hsync : vendorSynced db0 st.db st.cfg v) :
    (syncVendorStep st v).db = st.db ∧ (syncVendorStep st v).cfg = st.cfg := by
  obtain ⟨kvs, vd, hkvs, hvd, hall⟩ := hens
  obtain ⟨vobj, hvobj, ⟨ssE, hissE, hssE⟩, d, hdel⟩ := hall v hvin
  unfold vendorSynced at hsync
  obtain ⟨dbv, ss, hget, hstored, hclean, hcov, hprov, hblank⟩ := hsync
  have hsE : storedIssues st.cfg v = ssE.map PyVal.str := by
    rw [hkvs]
    exact storedIssues_eq hvd hvobj hissE
  have hsseq : ssE = ss :=
    List.map_injective_iff.mpr (fun a b hab => PyVal.str.inj hab)
      (hsE.symm.trans hstored)
  subst hsseq
  have hL2e : (appendDbIssues (dbv.map Prod.fst)
      (if v = "" then default_issues.map PyVal.str else ssE.map PyVal.str)
      (if v = "" then default_issues.map PyVal.str else ssE.map PyVal.str)
      false).2.1 = ssE.map PyVal.str := by
    by_cases hv : v = ""
    · rw [if_pos hv]
      exact hblank hv
    · rw [if_neg hv]
      have hstab : ∀ k ∈ dbv.map Prod.fst,
          pyStrip k = "" ∨ PyVal.str (pyStrip k) ∈ ssE.map PyVal.str := by
        intro k hk
        by_cases hks : pyStrip k = ""
        · exact Or.inl hks
        · exact Or.inr (str_mem_map.mpr (hcov k hk hks))
      rw [appendDbIssues_stable _ _ _ _ hstab]
  obtain ⟨hdb', hcfg'⟩ := syncVendorStep_normal st v (.dict dbv) hget kvs vd vobj
    ssE hkvs hvd hvobj hissE hssE.1 _ _ rfl rfl
  rw [show asDict (PyVal.dict dbv) = dbv from rfl] at hdb' hcfg'
  rw [hL2e] at hdb' hcfg'
  constructor
  · rw [hdb']
    have hpres : ∀ u ∈ ssE, dMem dbv u = true := by
      intro u hu
      obtain ⟨cat, hc, _⟩ := hprov u hu
      exact dMem_of_dGet hc
    rw [createIssues_stable ssE dbv st.changed_db hpres]
    exact dSet_same hget
  · rw [hcfg']
    rw [dSet_same hissE, dSet_same hvobj, dSet_same hvd, ← hkvs]

theorem syncFold_stable (db0 : PyVal) (vendorsAll : List String) :
    ∀ (vs : List String) (st : SyncResult),
      (∀ u ∈ vs, u ∈ vendorsAll) →
      cfgEnsured st.cfg vendorsAll →
      (∀ u ∈ vendorsAll, vendorSynced db0 st.db st.cfg u) →
      (vs.foldl syncVendorStep st).db = st.db
      ∧ (vs.foldl syncVendorStep st).cfg = st.cfg := by
  intro vs
  induction vs with
  | nil =>
    intro st _ _ _
    exact ⟨rfl, rfl⟩
  | cons v rest ih =>
    intro st hsub hens hsync
    have hst := syncVendorStep_stable db0 st vendorsAll v hens (hsub v (by simp))
      (hsync v (hsub v (by simp)))
    rw [List.foldl_cons]
    have hens1 : cfgEnsured (syncVendorStep st v).cfg vendorsAll := by
      rw [hst.2]
      exact hens
    have hsync1 : ∀ u ∈ vendorsAll,
        vendorSynced db0 (syncVendorStep st v).db (syncVendorStep st v).cfg u := by
      intro u hu
      rw [hst.1, hst.2]
      exact hsync u hu
    obtain ⟨hd, hc⟩ := ih (syncVendorStep st v) (fun u hu => hsub u (by simp [hu]))
      hens1 hsync1
    exact ⟨hd.trans hst.1, hc.trans hst.2⟩

/-- C1 (claim as stated is false): it is not the case that after the sync
pass every issue key of the vendor's db subtree appears in the vendor's
configured issues list and every listed name maps to a category dict
containing "_COMMON".  Counterexample: db `\x7b"V": \x7b"I": \x7b\x7d,
" ": \x7b\x7d\x7d\x7d` with empty config — the blank key " " never enters
the list (it strips to empty), and "I" keeps its original empty category
dict without "_COMMON". -/
theorem sync_with_db_claim_counterexample :
    ¬ (∀ db0 cfg0 : PyVal, ∀ v ∈ (coerceDb db0).map Prod.fst,
        ∀ dbv, dGet (_sync_vendor_scoped_config_with_db db0 cfg0).db v
            = some (.dict dbv) →
          (∀ k ∈ dbv.map Prod.fst,
              PyVal.str k ∈ storedIssues
                (_sync_vendor_scoped_config_with_db db0 cfg0).cfg v)
          ∧ (∀ nm ∈ storedIssues
                (_sync_vendor_scoped_config_with_db db0 cfg0).cfg v,
              ∃ s cat, nm = PyVal.str s ∧ dGet dbv s = some (.dict cat)
                ∧ dMem cat "_COMMON" = true)) := by
  intro h
  have h2 := h (.dict [("V", .dict [("I", .dict []), (" ", .dict [])])])
    (.dict []) "V" (by decide)
    [("I", .dict []), (" ", .dict []),
      ("데이터 이슈", _default_issue_obj), ("망등록 이슈", _default_issue_obj)]
    (by decide)
  exact absurd (h2.1 " " (by decide)) (by decide)

/-- C1 (amended): after `_sync_vendor_scoped_config_with_db` (on a db whose
vendor keys are distinct, as Python dict keys are), the default issue
object does contain "_COMMON", and for every vendor the stored issues list
is a clean string list that contains the stripped form of every nonblank db
key (blank-stripping keys are dropped, and keys appear stripped rather than
verbatim), while every listed name maps in the db to either the freshly
created default issue object or to its unmodified original value — which
need not contain "_COMMON". -/
theorem sync_with_db_amended (db0 cfg0 : PyVal)
    (hnd : ((coerceDb db0).map Prod.fst).Nodup) :
    dMem (asDict _default_issue_obj) "_COMMON" = true
    ∧ ∀ v ∈ (coerceDb db0).map Prod.fst,
      ∃ dbv ss,
        dGet (_sync_vendor_scoped_config_with_db db0 cfg0).db v = some (.dict dbv)
        ∧ storedIssues (_sync_vendor_scoped_config_with_db db0 cfg0).cfg v
            = ss.map PyVal.str
        ∧ cleanIssues ss
        ∧ (∀ k ∈ dbv.map Prod.fst, pyStrip k ≠ "" → pyStrip k ∈ ss)
        ∧ (∀ s ∈ ss, ∃ cat, dGet dbv s = some cat
            ∧ (cat = _default_issue_obj
               ∨ dGet (asDict (dGetD (coerceDb db0) v PyVal.none)) s = some cat)) := by
  refine ⟨by decide, ?_⟩
  intro v hv
  have hsync := (sync_post db0 cfg0 hnd).2.2 v hv
  unfold vendorSynced at hsync
  obtain ⟨dbv, ss, h1, h2, h3, h4, h5, _⟩ := hsync
  exact ⟨dbv, ss, h1, h2, h3, h4, h5⟩

theorem sync_with_db_amended_witness :
    ((coerceDb (.dict [("V", .dict [("I", .dict [])])])).map Prod.fst).Nodup
    ∧ (dMem (asDict _default_issue_obj) "_COMMON" = true
       ∧ ∀ v ∈ (coerceDb (.dict [("V", .dict [("I", .dict [])])])).map Prod.fst,
         ∃ dbv ss,
           dGet (_sync_vendor_scoped_config_with_db
               (.dict [("V", .dict [("I", .dict [])])]) (.dict [])).db v
             = some (.dict dbv)
           ∧ storedIssues (_sync_vendor_scoped_config_with_db
               (.dict [("V", .dict [("I", .dict [])])]) (.dict [])).cfg v
               = ss.map PyVal.str
           ∧ cleanIssues ss
           ∧ (∀ k ∈ dbv.map Prod.fst, pyStrip k ≠ "" → pyStrip k ∈ ss)
           ∧ (∀ s ∈ ss, ∃ cat, dGet dbv s = some cat
               ∧ (cat = _default_issue_obj
                  ∨ dGet (asDict (dGetD
                      (coerceDb (.dict [("V", .dict [("I", .dict [])])]))
                      v PyVal.none)) s = some cat))) :=
  ⟨by decide,
    sync_with_db_amended (.dict [("V", .dict [("I", .dict [])])]) (.dict [])
      (by decide)⟩

/-- C3: the reconciliation pair (ensure followed by the catalog sync pass,
i.e. `_sync_vendor_scoped_config_with_db` which performs both) is
idempotent on the db and config values: running it a second time on the
first run's results returns them unchanged. -/
theorem reconcile_idempotent (db0 cfg0 : PyVal)
    (hnd : ((coerceDb db0).map Prod.fst).Nodup) :
    (_sync_vendor_scoped_config_with_db
        (.dict (_sync_vendor_scoped_config_with_db db0 cfg0).db)
        (_sync_vendor_scoped_config_with_db db0 cfg0).cfg).db
      = (_sync_vendor_scoped_config_with_db db0 cfg0).db
    ∧ (_sync_vendor_scoped_config_with_db
        (.dict (_sync_vendor_scoped_config_with_db db0 cfg0).db)
        (_sync_vendor_scoped_config_with_db db0 cfg0).cfg).cfg
      = (_sync_vendor_scoped_config_with_db db0 cfg0).cfg := by
  obtain ⟨hens, hkeys, hsync⟩ := sync_post db0 cfg0 hnd
  have hrw : ∀ (D : List (String × PyVal)) (C : PyVal),
      _sync_vendor_scoped_config_with_db (.dict D) C
        = (D.map Prod.fst).foldl syncVendorStep
            { db := D
              cfg := ensure_issue_config_vendor_scoped C (D.map Prod.fst)
              changed_db := false
              changed_cfg := false } := fun D C => rfl
  rw [hrw, hkeys, ensure_stable hens]
  have hstable := syncFold_stable db0 ((coerceDb db0).map Prod.fst)
    ((coerceDb db0).map Prod.fst)
    { db := (_sync_vendor_scoped_config_with_db db0 cfg0).db
      cfg := (_sync_vendor_scoped_config_with_db db0 cfg0).cfg
      changed_db := false
      changed_cfg := false }
    (fun u hu => hu) hens hsync
  exact ⟨hstable.1, hstable.2⟩

theorem reconcile_idempotent_witness :
    ((coerceDb (.dict [("V", .dict [("I", .dict [])])])).map Prod.fst).Nodup
    ∧ ((_sync_vendor_scoped_config_with_db
          (.dict (_sync_vendor_scoped_config_with_db
              (.dict [("V", .dict [("I", .dict [])])]) (.dict [])).db)
          (_sync_vendor_scoped_config_with_db
              (.dict [("V", .dict [("I", .dict [])])]) (.dict [])).cfg).db
        = (_sync_vendor_scoped_config_with_db
            (.dict [("V", .dict [("I", .dict [])])]) (.dict [])).db
      ∧ (_sync_vendor_scoped_config_with_db
          (.dict (_sync_vendor_scoped_config_with_db
              (.dict [("V", .dict [("I", .dict [])])]) (.dict [])).db)
          (_sync_vendor_scoped_config_with_db
              (.dict [("V", .dict [("I", .dict [])])]) (.dict [])).cfg).cfg
        = (_sync_vendor_scoped_config_with_db
            (.dict [("V", .dict [("I", .dict [])])]) (.dict [])).cfg) :=
  ⟨by decide,
    reconcile_idempotent (.dict [("V", .dict [("I", .dict [])])]) (.dict [])
      (by decide)⟩

/-! ## Import validation (`validate_import_package`, `import_data_replace`) -/

/-- `validate_import_package(pkg)`. -/
def validate_import_package (pkg : PyVal) : Bool × String :=
  match pkg with
  | .dict kvs =>
    if dGetD kvs "schema" .none ≠ .str "KeywordGuideExport" then
      (false, "Invalid schema (not KeywordGuideExport).")
    else if dMem kvs "db" = false ∨ dMem kvs "issue_cfg" = false then
      (false, "Missing required keys: db / issue_cfg.")
    else if isDict (dGetD kvs "db" .none) = false then
      (false, "db must be a dict.")
    else if isDict (dGetD kvs "issue_cfg" .none) = false then
      (false, "issue_cfg must be a dict.")
    else (true, "OK")
  | _ => (false, "Import file is not a JSON object.")

/-- The spec-side characterisation of a rejected package (stated from the
spec wording, to be compared with `validate_import_package`): not a JSON
object, wrong `schema`, missing `db`/`issue_cfg`, or a present key that is
not object-typed. -/
def badImportPackageSpec (pkg : PyVal) : Prop :=
  isDict pkg = false
  ∨ dGetD (asDict pkg) "schema" PyVal.none ≠ PyVal.str "KeywordGuideExport"
  ∨ dMem (asDict pkg) "db" = false
  ∨ dMem (asDict pkg) "issue_cfg" = false
  ∨ isDict (dGetD (asDict pkg) "db" PyVal.none) = false
  ∨ isDict (dGetD (asDict pkg) "issue_cfg" PyVal.none) = false

/-- The in-memory state touched by the import path. -/
structure AppState where
  db : List (String × PyVal)
  issue_cfg : PyVal
  ui_state : PyVal

/-- `_load_import_file`: the chosen/parsed package (or `none` for a
cancelled dialog or a read/parse error) is validated; on success the import
path is recorded in the package, on failure `None` is returned. -/
def _load_import_file (parsed : Option PyVal) (path : String) : Option PyVal :=
  match parsed with
  | Option.none => Option.none
  | some pkg =>
    if (validate_import_package pkg).1 = true then
      some (.dict (dSet (asDict pkg) "_import_path" (.str path)))
    else Option.none

/-- `import_data_replace`: load/validate, confirm, then replace db,
issue_cfg and ui_state (running the ensure pass and the db sync pass). -/
def import_data_replace (st : AppState) (parsed : Option PyVal)
    (path : String) (confirmed : Bool) : AppState :=
  match _load_import_file parsed path with
  | Option.none => st
  | some pkg =>
    if pyTruthy pkg = false then st
    else if confirmed = false then st
    else
      let kvs := asDict pkg
      let new_db := dGetD kvs "db" (.dict [])
      let new_cfg := dGetD kvs "issue_cfg" (.dict [])
      let new_ui := dGetD kvs "ui_state" (.dict [])
      let vendors := if isDict new_db then (asDict new_db).map Prod.fst else []
      let new_cfg2 := ensure_issue_config_vendor_scoped new_cfg vendors
      let db1 := if isDict new_db then asDict new_db else _default_db
      let cfg1 := if isDict new_cfg2 then new_cfg2
        else ensure_issue_config_vendor_scoped (.dict []) (db1.map Prod.fst)
      let ui1 := if isDict new_ui && pyTruthy new_ui then new_ui else st.ui_state
      let res := _sync_vendor_scoped_config_with_db (.dict db1) cfg1
      { db := res.db, issue_cfg := res.cfg, ui_state := ui1 }

theorem load_import_file_fail {pkg : PyVal}
    (h : (validate_import_package pkg).1 = false) (path : String) :
    _load_import_file (some pkg) path = Option.none := by
  show (if (validate_import_package pkg).1 = true
        then some (PyVal.dict (dSet (asDict pkg) "_import_path" (.str path)))
        else Option.none) = Option.none
  rw [h]
  rfl

/-- C8: `validate_import_package` fails exactly on the packages the spec
rejects (non-object, wrong schema, missing or non-object `db`/`issue_cfg`),
always with one of the five descriptive messages, and a package that fails
validation leaves the in-memory db, issue_cfg and ui_state untouched. -/
theorem import_validation_gate :
    (∀ pkg : PyVal,
      (validate_import_package pkg).1 = false ↔ badImportPackageSpec pkg)
    ∧ (∀ pkg : PyVal, (validate_import_package pkg).1 = false →
        (validate_import_package pkg).2 ∈
          ["Import file is not a JSON object.",
           "Invalid schema (not KeywordGuideExport).",
           "Missing required keys: db / issue_cfg.",
           "db must be a dict.",
           "issue_cfg must be a dict."])
    ∧ (∀ (pkg : PyVal) (st : AppState) (path : String) (confirmed : Bool),
        (validate_import_package pkg).1 = false →
        import_data_replace st (some pkg) path confirmed = st) := by
  refine ⟨?_, ?_, ?_⟩
  · intro pkg
    cases pkg with
    | dict kvs =>
      simp only [validate_import_package]
      unfold badImportPackageSpec
      split_ifs with h1 h2 h3 h4
      · exact iff_of_true rfl (Or.inr (Or.inl h1))
      · refine iff_of_true rfl ?_
        rcases h2 with h | h
        · exact Or.inr (Or.inr (Or.inl h))
        · exact Or.inr (Or.inr (Or.inr (Or.inl h)))
      · exact iff_of_true rfl (Or.inr (Or.inr (Or.inr (Or.inr (Or.inl h3)))))
      · exact iff_of_true rfl (Or.inr (Or.inr (Or.inr (Or.inr (Or.inr h4)))))
      · refine iff_of_false (by simp) ?_
        push_neg at h2
        rintro (h | h | h | h | h | h)
        · exact absurd h (by simp [isDict])
        · exact h (not_not.mp h1)
        · exact h2.1 h
        · exact h2.2 h
        · exact h3 h
        · exact h4 h
    | str s => exact iff_of_true rfl (Or.inl rfl)
    | int n => exact iff_of_true rfl (Or.inl rfl)
    | bool b => exact iff_of_true rfl (Or.inl rfl)
    | none => exact iff_of_true rfl (Or.inl rfl)
    | list xs => exact iff_of_true rfl (Or.inl rfl)
  · intro pkg
    cases pkg with
    | dict kvs =>
      simp only [validate_import_package]
      split_ifs
      · intro _; simp
      · intro _; simp
      · intro _; simp
      · intro _; simp
      · intro h; exact absurd h (by simp)
    | str s => intro _; simp [validate_import_package]
    | int n => intro _; simp [validate_import_package]
    | bool b => intro _; simp [validate_import_package]
    | none => intro _; simp [validate_import_package]
    | list xs => intro _; simp [validate_import_package]
  · intro pkg st path confirmed h
    unfold import_data_replace
    rw [load_import_file_fail h path]

theorem import_validation_gate_witness :
    ((validate_import_package (.dict [])).1 = false
      ∧ import_data_replace ⟨[], .dict [], .dict []⟩ (some (.dict [])) "p" true
          = ⟨[], .dict [], .dict []⟩)
    ∧ badImportPackageSpec (.dict []) :=
  ⟨⟨by decide,
    import_validation_gate.2.2 (.dict []) ⟨[], .dict [], .dict []⟩ "p" true
      (by decide)⟩,
   Or.inr (Or.inl (by decide))⟩

end KG
